import Mathlib

/-! SingleLinkedList (single-linked-list.h): a shallow embedding

The C++ class keeps a sentinel node `head_` inside the list object, a chain of
heap nodes created by `new Node(...)`, and a `size_t` counter `size_`.

Model:
* a node pointer (`Node*`) is `NodePtr`: `nullptr`, the address of the sentinel
  `head_` of a list object, or the address of a heap node;
* the memory `Mem` holds the list objects (indexed by object identity, so that
  two references may alias), the heap cells, and the number of `new`
  expressions that will still succeed (a `new` beyond it throws);
* every member function is a function on `Mem` taking the identity `this` of
  the object it is called on; it returns `Except (Err α) _`, where `Err` separates
  a thrown exception from undefined behaviour (null dereference, failed
  `assert`, use of a freed node) and from an exhausted loop bound;
* `size_t` is taken 64 bits wide: `++size_` and `--size_` are modulo `2 ^ 64`;
* loops that follow `next_node` links take a bound on the number of iterations;
* a list object local to a member function (`x` in `swap` and in `operator=`) lives in
  an object identity handed to the function, as `this` is handed to a constructor.
-/

namespace SLL

/-- Value of a `Node*`. -/
inductive NodePtr where
  | null : NodePtr
  | head (list : Nat) : NodePtr
  | heap (addr : Nat) : NodePtr
  deriving DecidableEq, Repr

/-- Struct `Node`: one element value and the link to the next node. -/
structure Node (α : Type) where
  value : α
  next_node : NodePtr
  deriving DecidableEq, Repr

/-- Data members of a `SingleLinkedList` object. The sentinel `head_` is kept as its
`next_node` link only: its value slot is never read by the member functions. -/
structure SingleLinkedList where
  head_next_node : NodePtr := NodePtr.null
  size_ : Nat := 0
  deriving DecidableEq, Repr

/-- Memory: list objects by identity, heap cells by address (a freed or never
allocated cell is `none`), and the number of `new` expressions that still succeed. -/
structure Mem (α : Type) where
  objs : Nat → SingleLinkedList
  nodes : List (Option (Node α))
  budget : Nat

/-- Outcomes other than a normal return: an exception thrown by a `new` expression,
recorded with the memory at the moment it is thrown (no handler of the class changes the
memory and no completed local object is destroyed while it propagates, so this is the
memory the caller finds); undefined behaviour; an exhausted loop bound. -/
inductive Err (α : Type) where
  | bad_alloc (m : Mem α) : Err α
  | undefined : Err α
  | out_of_fuel : Err α

/-- Modulus of `size_t` arithmetic. -/
def SIZE_MOD : Nat := 2 ^ 64

/-- Increment `++size_` on `size_t`. -/
def size_inc (n : Nat) : Nat := (n + 1) % SIZE_MOD

/-- Decrement `--size_` on `size_t` (wraps below zero). -/
def size_dec (n : Nat) : Nat := (n + (SIZE_MOD - 1)) % SIZE_MOD

variable {α : Type}

/-- Content of the heap cell at address `a`: `none` when the address was never
allocated or the node was deleted. -/
def Mem.cell (m : Mem α) (a : Nat) : Option (Node α) :=
  match m.nodes[a]? with
  | some c => c
  | none => none

/-- Read of `p->next_node`. -/
def Mem.get_next (m : Mem α) : NodePtr → Except (Err α) NodePtr
  | NodePtr.null => Except.error Err.undefined
  | NodePtr.head l => Except.ok (m.objs l).head_next_node
  | NodePtr.heap a =>
    match m.cell a with
    | some n => Except.ok n.next_node
    | none => Except.error Err.undefined

/-- Read of `p->value`. The sentinel holds no element. -/
def Mem.get_value (m : Mem α) : NodePtr → Except (Err α) α
  | NodePtr.heap a =>
    match m.cell a with
    | some n => Except.ok n.value
    | none => Except.error Err.undefined
  | _ => Except.error Err.undefined

/-- Write `p->next_node = q`. -/
def Mem.set_next (m : Mem α) (p q : NodePtr) : Except (Err α) (Mem α) :=
  match p with
  | NodePtr.null => Except.error Err.undefined
  | NodePtr.head l =>
    Except.ok { m with objs := fun i =>
      if i = l then { m.objs l with head_next_node := q } else m.objs i }
  | NodePtr.heap a =>
    match m.cell a with
    | some n =>
      Except.ok { m with nodes := m.nodes.set a (some { n with next_node := q }) }
    | none => Except.error Err.undefined

/-- Write of the member `size_` of object `this`. -/
def Mem.set_size (m : Mem α) (this : Nat) (v : Nat) : Mem α :=
  { m with objs := fun i => if i = this then { m.objs this with size_ := v } else m.objs i }

/-- Expression `new Node(val, next)`: throws when no allocation is left, otherwise
yields a fresh address. -/
def Mem.new_Node (m : Mem α) (val : α) (next : NodePtr) : Except (Err α) (NodePtr × Mem α) :=
  if m.budget = 0 then Except.error (Err.bad_alloc m)
  else Except.ok (NodePtr.heap m.nodes.length,
    { m with nodes := m.nodes ++ [some { value := val, next_node := next }],
             budget := m.budget - 1 })

/-- Statement `delete p`: no effect on `nullptr`, releases a live heap node. -/
def Mem.delete_Node (m : Mem α) : NodePtr → Except (Err α) (Mem α)
  | NodePtr.null => Except.ok m
  | NodePtr.head _ => Except.error Err.undefined
  | NodePtr.heap a =>
    match m.cell a with
    | some _ => Except.ok { m with nodes := m.nodes.set a none }
    | none => Except.error Err.undefined

/-- Class `BasicIterator`: a cursor holding a node pointer. -/
structure BasicIterator where
  node_ : NodePtr := NodePtr.null
  deriving DecidableEq, Repr

/-- Dereference `operator*`: `assert(node_ != nullptr); return node_->value;`. -/
def BasicIterator.deref (m : Mem α) (it : BasicIterator) : Except (Err α) α :=
  if it.node_ = NodePtr.null then Except.error Err.undefined
  else m.get_value it.node_

/-- Pre-increment `operator++`: `node_ = node_->next_node`. -/
def BasicIterator.incr (m : Mem α) (it : BasicIterator) : Except (Err α) BasicIterator := do
  let n ← m.get_next it.node_
  return { node_ := n }

/-- Member `GetSize`. -/
def GetSize (m : Mem α) (this : Nat) : Nat := (m.objs this).size_

/-- Member `IsEmpty`. -/
def IsEmpty (m : Mem α) (this : Nat) : Bool := decide ((m.objs this).size_ = 0)

/-- Member `begin` (and `cbegin`). -/
def begin_ (m : Mem α) (this : Nat) : BasicIterator := { node_ := (m.objs this).head_next_node }

/-- Member `end` (and `cend`). -/
def end_ : BasicIterator := { node_ := NodePtr.null }

/-- Member `before_begin` (and `cbefore_begin`). -/
def before_begin (this : Nat) : BasicIterator := { node_ := NodePtr.head this }

/-- Member `PushFront`. -/
def PushFront (m : Mem α) (this : Nat) (new_elem : α) : Except (Err α) (Mem α) := do
  let (t, m1) ← m.new_Node new_elem (m.objs this).head_next_node
  let m2 := m1.set_size this (size_inc (m1.objs this).size_)
  m2.set_next (NodePtr.head this) t

/-- Member `Clear`; `fuel` bounds the iterations of its `while` loop. -/
def Clear : Nat → Mem α → Nat → Except (Err α) (Mem α)
  | 0, _, _ => Except.error Err.out_of_fuel
  | fuel + 1, m, this =>
    if (m.objs this).head_next_node = NodePtr.null then Except.ok m
    else do
      let buffer := (m.objs this).head_next_node
      let nx ← m.get_next buffer
      let m1 ← m.set_next (NodePtr.head this) nx
      let m2 := m1.set_size this (size_dec (m1.objs this).size_)
      let m3 ← m2.delete_Node buffer
      Clear fuel m3 this

/-- Member `InsertAfter`. The link of `pos` is read before the node is created; for a
position whose link can be read the order of the two is immaterial. -/
def InsertAfter (m : Mem α) (this : Nat) (pos : BasicIterator) (value : α) :
    Except (Err α) (Mem α × BasicIterator) := do
  let nx ← m.get_next pos.node_
  let (new_node, m1) ← m.new_Node value nx
  let m2 ← m1.set_next pos.node_ new_node
  let m3 := m2.set_size this (size_inc (m2.objs this).size_)
  let r ← m3.get_next pos.node_
  return (m3, { node_ := r })

/-- Member `EraseAfter`. -/
def EraseAfter (m : Mem α) (this : Nat) (pos : BasicIterator) :
    Except (Err α) (Mem α × BasicIterator) := do
  let victim ← m.get_next pos.node_
  let after_deleted ← m.get_next victim
  let m1 ← m.delete_Node victim
  let m2 ← m1.set_next pos.node_ after_deleted
  let m3 := m2.set_size this (size_dec (m2.objs this).size_)
  return (m3, { node_ := after_deleted })

/-- Member `PopFront`: `EraseAfter(ConstIterator(&head_)); --size_;`. -/
def PopFront (m : Mem α) (this : Nat) : Except (Err α) (Mem α) := do
  let (m1, _) ← EraseAfter m this { node_ := NodePtr.head this }
  return m1.set_size this (size_dec (m1.objs this).size_)

/-- Operations that the template `iterator_fill` uses on its iterator type `It`:
dereference and pre-increment (the comparison is equality of the iterator values). -/
structure InputIt (α : Type) (ι : Type) where
  deref : Mem α → ι → Except (Err α) α
  incr : Mem α → ι → Except (Err α) ι

/-- Iterator of `std::initializer_list<Type>`: a position in the backing array
`list` (`begin()` is position `0`, `end()` is position `list.length`). -/
def initializer_list_It (list : List α) : InputIt α Nat where
  deref := fun _ i =>
    match list[i]? with
    | some v => Except.ok v
    | none => Except.error Err.undefined
  incr := fun _ i => Except.ok (i + 1)

/-- Iterator `ConstIterator` of the list itself. -/
def ConstIterator_It : InputIt α BasicIterator where
  deref := fun m it => it.deref m
  incr := fun m it => it.incr m

/-- The `for` loop of `iterator_fill`, entered with `ptr` and `begin`; `fuel` bounds
its iterations. -/
def iterator_fill_loop {ι : Type} [DecidableEq ι] (It : InputIt α ι) :
    Nat → Mem α → Nat → NodePtr → ι → ι → Except (Err α) (Mem α)
  | 0, _, _, _, _, _ => Except.error Err.out_of_fuel
  | fuel + 1, m, this, ptr, first, last =>
    if first = last then Except.ok m
    else do
      let v ← It.deref m first
      let (n, m1) ← m.new_Node v NodePtr.null
      let m2 ← m1.set_next ptr n
      let m3 := m2.set_size this (size_inc (m2.objs this).size_)
      let first1 ← It.incr m3 first
      let ptr1 ← m3.get_next ptr
      iterator_fill_loop It fuel m3 this ptr1 first1 last

/-- Private member template `iterator_fill`. -/
def iterator_fill {ι : Type} [DecidableEq ι] (It : InputIt α ι) (fuel : Nat) (m : Mem α)
    (this : Nat) (first last : ι) : Except (Err α) (Mem α) := do
  let m0 ← Clear fuel m this
  if first = last then return m0
  iterator_fill_loop It fuel m0 this (NodePtr.head this) first last

/-- Default constructor, also the member initialisation that precedes the body of the
other constructors: `head_.next_node = nullptr`, `size_ = 0`. -/
def SingleLinkedList_default (m : Mem α) (this : Nat) : Mem α :=
  { m with objs := fun i => if i = this then { } else m.objs i }

/-- Constructor from `std::initializer_list<Type>`. -/
def SingleLinkedList_initializer_list (fuel : Nat) (m : Mem α) (this : Nat) (list : List α) :
    Except (Err α) (Mem α) :=
  iterator_fill (initializer_list_It list) fuel (SingleLinkedList_default m this) this
    0 list.length

/-- Copy constructor. -/
def SingleLinkedList_copy (fuel : Nat) (m : Mem α) (this : Nat) (list : Nat) :
    Except (Err α) (Mem α) :=
  let m0 := SingleLinkedList_default m this
  iterator_fill ConstIterator_It fuel m0 this (begin_ m0 list) end_

/-- Client loop `for (it = first; it != last; ++it) out.push_back(*it);`: the values
met on the way from `first` to `last`. -/
def traverse : Nat → Mem α → BasicIterator → BasicIterator → Except (Err α) (List α)
  | 0, _, _, _ => Except.error Err.out_of_fuel
  | fuel + 1, m, first, last =>
    if first = last then Except.ok []
    else do
      let v ← first.deref m
      let nx ← first.incr m
      let rest ← traverse fuel m nx last
      return v :: rest

/-- Traversal of a list from `begin()` to `end()`. -/
def toList (fuel : Nat) (m : Mem α) (this : Nat) : Except (Err α) (List α) :=
  traverse fuel m (begin_ m this) end_

/-- Cursor reached from `it` by `n` pre-increments. -/
def advance (m : Mem α) : Nat → BasicIterator → Except (Err α) BasicIterator
  | 0, it => Except.ok it
  | n + 1, it => do
    let nx ← it.incr m
    advance m n nx

/-- Library algorithm `std::equal(first1, last1, first2)` of the C++ standard:
`for (; first1 != last1; ++first1, ++first2) if (!(*first1 == *first2)) return false;
return true;`. -/
def std_equal [DecidableEq α] :
    Nat → Mem α → BasicIterator → BasicIterator → BasicIterator → Except (Err α) Bool
  | 0, _, _, _, _ => Except.error Err.out_of_fuel
  | fuel + 1, m, first1, last1, first2 =>
    if first1 = last1 then Except.ok true
    else do
      let a ← first1.deref m
      let b ← first2.deref m
      if a = b then
        let n1 ← first1.incr m
        let n2 ← first2.incr m
        std_equal fuel m n1 last1 n2
      else return false

/-- Library algorithm `std::lexicographical_compare(first1, last1, first2, last2)` of the
C++ standard: `for (; first1 != last1 && first2 != last2; ++first1, ++first2)
{ if (*first1 < *first2) return true; if (*first2 < *first1) return false; }
return first1 == last1 && first2 != last2;`. -/
def lexicographical_compare [LT α] [DecidableRel (fun (a b : α) => a < b)] :
    Nat → Mem α → BasicIterator → BasicIterator → BasicIterator → BasicIterator →
      Except (Err α) Bool
  | 0, _, _, _, _, _ => Except.error Err.out_of_fuel
  | fuel + 1, m, first1, last1, first2, last2 =>
    if first1 ≠ last1 ∧ first2 ≠ last2 then do
      let a ← first1.deref m
      let b ← first2.deref m
      if a < b then return true
      else if b < a then return false
      else
        let n1 ← first1.incr m
        let n2 ← first2.incr m
        lexicographical_compare fuel m n1 last1 n2 last2
    else return (decide (first1 = last1) && decide (first2 ≠ last2))

/-- Member `operator>`. -/
def operator_gt [LT α] [DecidableRel (fun (a b : α) => a < b)] (fuel : Nat) (m : Mem α)
    (this rhs : Nat) : Except (Err α) Bool := do
  let r ← lexicographical_compare fuel m (begin_ m this) end_ (begin_ m rhs) end_
  return !r

/-- Member `operator<`. -/
def operator_lt [LT α] [DecidableRel (fun (a b : α) => a < b)] (fuel : Nat) (m : Mem α)
    (this rhs : Nat) : Except (Err α) Bool :=
  lexicographical_compare fuel m (begin_ m this) end_ (begin_ m rhs) end_

/-- Member `operator==`. -/
def operator_eq [DecidableEq α] (fuel : Nat) (m : Mem α) (this rhs : Nat) : Except (Err α) Bool :=
  std_equal fuel m (begin_ m this) end_ (begin_ m rhs)

/-- Member `operator!=`. -/
def operator_ne [DecidableEq α] (fuel : Nat) (m : Mem α) (this rhs : Nat) : Except (Err α) Bool := do
  let r ← operator_eq fuel m this rhs
  return !r

/-- Member `operator>=`: `*this == rhs or *this > rhs`. -/
def operator_ge [DecidableEq α] [LT α] [DecidableRel (fun (a b : α) => a < b)] (fuel : Nat)
    (m : Mem α) (this rhs : Nat) : Except (Err α) Bool := do
  let e ← operator_eq fuel m this rhs
  if e then return true
  operator_gt fuel m this rhs

/-- Member `operator<=`: `*this == rhs or *this < rhs`. -/
def operator_le [DecidableEq α] [LT α] [DecidableRel (fun (a b : α) => a < b)] (fuel : Nat)
    (m : Mem α) (this rhs : Nat) : Except (Err α) Bool := do
  let e ← operator_eq fuel m this rhs
  if e then return true
  operator_lt fuel m this rhs

/-- Destructor `~SingleLinkedList()`: `Clear();`. -/
def SingleLinkedList_destructor (fuel : Nat) (m : Mem α) (this : Nat) : Except (Err α) (Mem α) :=
  Clear fuel m this

/-- Library function `std::swap` on the members `head_.next_node` of the list objects `i`
and `j`: `tmp = a; a = b; b = tmp`. -/
def swap_next_node (m : Mem α) (i j : Nat) : Mem α :=
  let tmp := (m.objs i).head_next_node
  let m1 : Mem α := { m with objs := fun k =>
    if k = i then { m.objs i with head_next_node := (m.objs j).head_next_node } else m.objs k }
  { m1 with objs := fun k =>
    if k = j then { m1.objs j with head_next_node := tmp } else m1.objs k }

/-- Library function `std::swap` on the members `size_` of the list objects `i` and `j`. -/
def swap_size_ (m : Mem α) (i j : Nat) : Mem α :=
  let tmp := (m.objs i).size_
  let m1 := m.set_size i (m.objs j).size_
  m1.set_size j tmp

/-- Member `swap`. The local list `x` of its block lives in the object `x`; it is
default-constructed when the block is entered and destroyed when it is left. -/
def swap (fuel : Nat) (m : Mem α) (this rhs x : Nat) : Except (Err α) (Mem α) :=
  if (m.objs this).head_next_node ≠ (m.objs rhs).head_next_node then
    let m0 := SingleLinkedList_default m x
    let m1 := swap_next_node m0 x rhs
    let m2 := swap_size_ m1 x rhs
    let m3 := swap_next_node m2 this x
    let m4 := swap_size_ m3 this x
    let m5 := swap_next_node m4 x rhs
    let m6 := swap_size_ m5 x rhs
    SingleLinkedList_destructor fuel m6 x
  else Except.ok m

/-- Free function `swap(lhs, rhs)`: `lhs.swap(rhs);`. -/
def swap_free (fuel : Nat) (m : Mem α) (lhs rhs x : Nat) : Except (Err α) (Mem α) :=
  swap fuel m lhs rhs x

/-- Member `operator=`. The local list `x` of its block lives in the object `x` (copy
constructed from `rhs`, destroyed when the block is left), the local list of the call
`swap(x)` in the object `x1`. When the copy constructor throws, `x` was not constructed
and is not destroyed. -/
def operator_assign (fuel : Nat) (m : Mem α) (this rhs x x1 : Nat) : Except (Err α) (Mem α) :=
  if (m.objs this).head_next_node ≠ (m.objs rhs).head_next_node then do
    let m1 ← SingleLinkedList_copy fuel m x rhs
    let m2 ← swap fuel m1 this x x1
    SingleLinkedList_destructor fuel m2 x
  else Except.ok m

/-- Memory with no heap node, every list object default-constructed, and `budget`
allocations available. -/
def Mem.init (α : Type) (budget : Nat) : Mem α :=
  { objs := fun _ => { }, nodes := [], budget := budget }

/-- Chain of heap nodes: starting at pointer `p`, the cells `cs` (address and value, in
order) are linked one to the next, and the link of the last one is `q` (with no cell,
`p` is `q`). -/
def Path (m : Mem α) : NodePtr → List (Nat × α) → NodePtr → Prop
  | p, [], q => p = q
  | p, c :: cs, q =>
    p = NodePtr.heap c.1 ∧
      ∃ nx, m.cell c.1 = some { value := c.2, next_node := nx } ∧ Path m nx cs q

/-- What a run of `iterator_fill` on the list `this`, appending after the node `ptr`,
keeps of the memory `m` in the memory `m1`: every live cell other than `ptr` is kept
whole, the value of every live cell is kept, the sentinel link of every list other than
`ptr` is kept, the `size_` of every list other than `this` is kept, no address is lost. -/
def Kept (m m1 : Mem α) (this : Nat) (ptr : NodePtr) : Prop :=
  (∀ b nd, m.cell b = some nd → NodePtr.heap b ≠ ptr → m1.cell b = some nd) ∧
  (∀ b nd, m.cell b = some nd →
    ∃ nx, m1.cell b = some { value := nd.value, next_node := nx }) ∧
  (∀ l, NodePtr.head l ≠ ptr → (m1.objs l).head_next_node = (m.objs l).head_next_node) ∧
  (∀ l, l ≠ this → (m1.objs l).size_ = (m.objs l).size_) ∧
  m.nodes.length ≤ m1.nodes.length

/-- Mutating the list `c` (of `n` elements) within the preconditions leaves the traversal
of the list `b` equal to `S`: after `PushFront`, after `InsertAfter` at the sentinel or
at an element of `c`, and after `EraseAfter` at a position of `c` that has a successor. -/
def Independent (fuel : Nat) (m : Mem α) (c b : Nat) (n : Nat) (S : List α) : Prop :=
  (∀ v m2, PushFront m c v = Except.ok m2 → toList fuel m2 b = Except.ok S) ∧
  (∀ k pos v m2 it, k ≤ n → advance m k (before_begin c) = Except.ok pos →
    InsertAfter m c pos v = Except.ok (m2, it) → toList fuel m2 b = Except.ok S) ∧
  (∀ k pos m2 it, k < n → advance m k (before_begin c) = Except.ok pos →
    EraseAfter m c pos = Except.ok (m2, it) → toList fuel m2 b = Except.ok S)

/-- Sample memory: list object `0` is `{1, 2, 3}` and list object `1` is `{1, 2}`, as left
by constructing the two lists one after the other; every other list object is empty. -/
def mem_sample : Mem Nat :=
  { objs := fun i =>
      if i = 0 then { head_next_node := NodePtr.heap 0, size_ := 3 }
      else if i = 1 then { head_next_node := NodePtr.heap 3, size_ := 2 }
      else { }
    nodes := [some { value := 1, next_node := NodePtr.heap 1 },
              some { value := 2, next_node := NodePtr.heap 2 },
              some { value := 3, next_node := NodePtr.null },
              some { value := 1, next_node := NodePtr.heap 4 },
              some { value := 2, next_node := NodePtr.null }]
    budget := 4 }

/-- Sample memory: list object `0` is `{0, 1, 2, 3}`, as left by constructing `{1, 2, 3}`
and then `PushFront(0)`. -/
def mem_0123 : Mem Nat :=
  { objs := fun i => if i = 0 then { head_next_node := NodePtr.heap 3, size_ := 4 } else { }
    nodes := [some { value := 1, next_node := NodePtr.heap 1 },
              some { value := 2, next_node := NodePtr.heap 2 },
              some { value := 3, next_node := NodePtr.null },
              some { value := 0, next_node := NodePtr.heap 0 }]
    budget := 4 }

/-- Sample memory: list object `0` is `{0, 2, 3}`, as left by `EraseAfter(begin())` on
`mem_0123`. -/
def mem_023 : Mem Nat :=
  { objs := fun i => if i = 0 then { head_next_node := NodePtr.heap 3, size_ := 3 } else { }
    nodes := [none,
              some { value := 2, next_node := NodePtr.heap 2 },
              some { value := 3, next_node := NodePtr.null },
              some { value := 0, next_node := NodePtr.heap 1 }]
    budget := 4 }

/-! ## Auxiliary facts -/

theorem ok_bind {ε β γ : Type} (x : β) (f : β → Except ε γ) :
    (Except.ok x >>= f) = f x := rfl

theorem error_bind {ε β γ : Type} (e : ε) (f : β → Except ε γ) :
    ((Except.error e : Except ε β) >>= f) = Except.error e := rfl

theorem pure_eq_ok {ε β : Type} (x : β) : (pure x : Except ε β) = Except.ok x := rfl

theorem cell_lt {m : Mem α} {a : Nat} {n : Node α} (h : m.cell a = some n) :
    a < m.nodes.length := by
  unfold Mem.cell at h
  by_contra hc
  rw [List.getElem?_eq_none (by omega)] at h
  simp at h

theorem cell_of_eq {m m1 : Mem α} (hn : m1.nodes = m.nodes) (b : Nat) :
    m1.cell b = m.cell b := by
  unfold Mem.cell
  rw [hn]

theorem cell_of_set {m m1 : Mem α} {a : Nat} {v : Option (Node α)}
    (hn : m1.nodes = m.nodes.set a v) (b : Nat) :
    m1.cell b = if b = a ∧ a < m.nodes.length then v else m.cell b := by
  unfold Mem.cell
  rw [hn, List.getElem?_set]
  by_cases hab : a = b
  · subst hab
    by_cases hl : a < m.nodes.length
    · simp [hl]
    · simp [hl, List.getElem?_eq_none (Nat.le_of_not_lt hl)]
  · have hba : ¬ b = a := fun h => hab h.symm
    simp [hab, hba]

theorem cell_of_append {m m1 : Mem α} {v : Option (Node α)}
    (hn : m1.nodes = m.nodes ++ [v]) (b : Nat) :
    m1.cell b = if b = m.nodes.length then v else m.cell b := by
  unfold Mem.cell
  rw [hn]
  by_cases hb : b = m.nodes.length
  · subst hb
    simp
  · simp only [hb, if_false]
    by_cases hl : b < m.nodes.length
    · rw [List.getElem?_append_left hl]
    · have h1 : m.nodes.length ≤ b := Nat.le_of_not_lt hl
      rw [List.getElem?_eq_none h1, List.getElem?_eq_none (by simp; omega)]

theorem get_next_heap {m : Mem α} {a : Nat} {n : Node α} (h : m.cell a = some n) :
    m.get_next (NodePtr.heap a) = Except.ok n.next_node := by
  simp [Mem.get_next, h]

theorem get_value_heap {m : Mem α} {a : Nat} {n : Node α} (h : m.cell a = some n) :
    m.get_value (NodePtr.heap a) = Except.ok n.value := by
  simp [Mem.get_value, h]

theorem deref_heap {m : Mem α} {a : Nat} {n : Node α} (h : m.cell a = some n) :
    BasicIterator.deref m { node_ := NodePtr.heap a } = Except.ok n.value := by
  simp [BasicIterator.deref, get_value_heap h]

theorem incr_heap {m : Mem α} {a : Nat} {n : Node α} (h : m.cell a = some n) :
    BasicIterator.incr m { node_ := NodePtr.heap a } = Except.ok { node_ := n.next_node } := by
  simp [BasicIterator.incr, get_next_heap h, ok_bind, pure_eq_ok]

theorem Path.frame {m m1 : Mem α} :
    ∀ {cs : List (Nat × α)} {p q : NodePtr}, Path m p cs q →
      (∀ c ∈ cs, m1.cell c.1 = m.cell c.1) → Path m1 p cs q
  | [], _, _, h, _ => h
  | c :: cs, _, _, ⟨hp, nx, hc, hrest⟩, hf =>
    ⟨hp, nx, by rw [hf c (List.mem_cons_self c cs)]; exact hc,
      Path.frame hrest (fun d hd => hf d (List.mem_cons_of_mem c hd))⟩

theorem Path.append {m : Mem α} :
    ∀ {cs1 cs2 : List (Nat × α)} {p q r : NodePtr}, Path m p cs1 q → Path m q cs2 r →
      Path m p (cs1 ++ cs2) r
  | [], _, _, _, _, h1, h2 => by
    have hpq : _ = _ := h1
    subst hpq
    exact h2
  | c :: cs1, _, _, _, _, ⟨hp, nx, hc, hrest⟩, h2 => ⟨hp, nx, hc, Path.append hrest h2⟩

theorem Path.split {m : Mem α} :
    ∀ (cs1 : List (Nat × α)) {cs2 : List (Nat × α)} {p r : NodePtr},
      Path m p (cs1 ++ cs2) r → ∃ q, Path m p cs1 q ∧ Path m q cs2 r
  | [], _, p, _, h => ⟨p, rfl, h⟩
  | _ :: cs1, _, _, _, ⟨hp, nx, hc, hrest⟩ =>
    let ⟨q, h1, h2⟩ := Path.split cs1 hrest
    ⟨q, ⟨hp, nx, hc, h1⟩, h2⟩

theorem Path.det {m : Mem α} :
    ∀ {cs1 cs2 : List (Nat × α)} {p : NodePtr}, Path m p cs1 NodePtr.null →
      Path m p cs2 NodePtr.null → cs1 = cs2
  | [], [], _, _, _ => rfl
  | [], _ :: _, _, h1, ⟨hp, _⟩ => by
    have hpq : _ = NodePtr.null := h1
    rw [hpq] at hp
    cases hp
  | _ :: _, [], _, ⟨hp, _⟩, h2 => by
    have hpq : _ = NodePtr.null := h2
    rw [hpq] at hp
    cases hp
  | c :: cs1, d :: cs2, _, ⟨hp, nx, hc, hrest⟩, ⟨hp2, nx2, hc2, hrest2⟩ => by
    rw [hp] at hp2
    have had : c.1 = d.1 := by injection hp2
    rw [← had, hc] at hc2
    have hnode : ({ value := c.2, next_node := nx } : Node α) = { value := d.2, next_node := nx2 } :=
      Option.some.inj hc2
    have hv : c.2 = d.2 := by injection hnode
    have hn : nx = nx2 := by injection hnode
    subst hn
    have hcd : c = d := Prod.ext had hv
    rw [hcd, Path.det hrest hrest2]

theorem Path.addr_lt {m : Mem α} :
    ∀ {cs : List (Nat × α)} {p q : NodePtr}, Path m p cs q → ∀ c ∈ cs, c.1 < m.nodes.length
  | [], _, _, _, c, hc => by cases hc
  | d :: cs, _, _, ⟨_, nx, hd, hrest⟩, c, hc => by
    rcases List.mem_cons.mp hc with h | h
    · subst h
      exact cell_lt hd
    · exact Path.addr_lt hrest c h

theorem Path.head_not_mem {m : Mem α} {c : Nat × α} {cs : List (Nat × α)} {p : NodePtr}
    (h : Path m p (c :: cs) NodePtr.null) : c.1 ∉ cs.map Prod.fst := by
  intro hmem
  obtain ⟨d, hd, hdc⟩ := List.mem_map.mp hmem
  obtain ⟨l1, l2, hsplit⟩ := List.append_of_mem hd
  obtain ⟨hp, nx, hc, hrest⟩ := h
  rw [hsplit] at hrest
  obtain ⟨q, _, h2⟩ := Path.split l1 hrest
  have hq : q = p := by
    obtain ⟨hq, _⟩ := h2
    rw [hq, hp, hdc]
  rw [hq] at h2
  have h1 : Path m p (c :: (l1 ++ d :: l2)) NodePtr.null := ⟨hp, nx, hc, hrest⟩
  have hlen := congrArg List.length (Path.det h1 h2)
  simp at hlen
  omega

theorem Path.nodup {m : Mem α} :
    ∀ {cs : List (Nat × α)} {p : NodePtr}, Path m p cs NodePtr.null →
      (cs.map Prod.fst).Nodup
  | [], _, _ => List.nodup_nil
  | c :: cs, _, h => by
    have hnm := Path.head_not_mem h
    obtain ⟨_, nx, _, hrest⟩ := h
    exact List.nodup_cons.mpr ⟨hnm, Path.nodup hrest⟩

theorem traverse_of_path {m : Mem α} :
    ∀ (fuel : Nat) {cs : List (Nat × α)} {p : NodePtr}, Path m p cs NodePtr.null →
      cs.length < fuel → traverse fuel m { node_ := p } end_ = Except.ok (cs.map Prod.snd)
  | 0, _, _, _, hl => by omega
  | fuel + 1, [], _, h, _ => by
    have hp : _ = NodePtr.null := h
    subst hp
    simp [traverse, end_]
  | fuel + 1, c :: cs, _, ⟨hp, nx, hc, hrest⟩, hl => by
    subst hp
    have ih := traverse_of_path fuel hrest (by simpa using hl)
    simp [traverse, end_, deref_heap hc, incr_heap hc, ok_bind, pure_eq_ok] at ih ⊢
    rw [ih]
    rfl

theorem path_of_traverse {m : Mem α} :
    ∀ (fuel : Nat) {S : List α} {p : NodePtr},
      traverse fuel m { node_ := p } end_ = Except.ok S →
      ∃ cs, Path m p cs NodePtr.null ∧ cs.map Prod.snd = S ∧ S.length < fuel
  | 0, _, _, h => by simp [traverse] at h
  | fuel + 1, S, p, h => by
    cases p with
    | null =>
      simp [traverse, end_] at h
      subst h
      exact ⟨[], rfl, rfl, by simp⟩
    | head l =>
      simp [traverse, end_, BasicIterator.deref, Mem.get_value, error_bind] at h
    | heap a =>
      cases hc : m.cell a with
      | none =>
        simp [traverse, end_, BasicIterator.deref, Mem.get_value, hc, error_bind] at h
      | some n =>
        simp only [traverse, end_, deref_heap hc, incr_heap hc, ok_bind, pure_eq_ok] at h
        cases hr : traverse fuel m { node_ := n.next_node } end_ with
        | error e =>
          simp [end_] at hr
          simp [hr, error_bind] at h
        | ok rest =>
          simp [end_] at hr
          simp [hr, ok_bind] at h
          obtain ⟨cs, hpath, hmap, hlen⟩ := path_of_traverse fuel hr
          refine ⟨(a, n.value) :: cs, ⟨rfl, n.next_node, hc, hpath⟩, ?_, ?_⟩
          · simp [hmap, ← h]
          · rw [← h]
            simp
            omega

theorem size_inc_eq {n : Nat} (h : n + 1 < SIZE_MOD) : size_inc n = n + 1 := by
  unfold size_inc
  exact Nat.mod_eq_of_lt h

theorem size_dec_eq {n : Nat} (h0 : 0 < n) (h : n < SIZE_MOD) : size_dec n = n - 1 := by
  unfold size_dec SIZE_MOD at *
  omega

theorem PushFront_ok (m : Mem α) (this : Nat) (x : α) (hb : m.budget ≠ 0) :
    PushFront m this x = Except.ok
      { objs := fun i =>
          if i = this then
            { head_next_node := NodePtr.heap m.nodes.length,
              size_ := size_inc (m.objs this).size_ }
          else m.objs i
        nodes := m.nodes ++ [some { value := x, next_node := (m.objs this).head_next_node }]
        budget := m.budget - 1 } := by
  simp only [PushFront, Mem.new_Node, hb, if_false, ok_bind, Mem.set_size, Mem.set_next]
  congr 2
  funext i
  by_cases hi : i = this <;> simp [hi]

/-- Effect of a successful `new Node(v, nx)`. -/
theorem new_Node_spec (m : Mem α) (v : α) (nx : NodePtr) (hb : m.budget ≠ 0) :
    ∃ m1, m.new_Node v nx = Except.ok (NodePtr.heap m.nodes.length, m1) ∧
      m1.objs = m.objs ∧ m1.budget = m.budget - 1 ∧
      m1.nodes.length = m.nodes.length + 1 ∧
      m1.cell m.nodes.length = some { value := v, next_node := nx } ∧
      ∀ b, b ≠ m.nodes.length → m1.cell b = m.cell b := by
  refine ⟨{ m with nodes := m.nodes ++ [some { value := v, next_node := nx }],
                   budget := m.budget - 1 }, ?_, rfl, rfl, by simp, ?_, ?_⟩
  · simp [Mem.new_Node, hb]
  · rw [cell_of_append rfl]
    simp
  · intro b hb2
    rw [cell_of_append rfl]
    simp [hb2]

/-- Effect of the write `p->next_node = q` on a pointer whose `next_node` can be read. -/
theorem set_next_spec (m : Mem α) (p q q0 : NodePtr) (hp : m.get_next p = Except.ok q0) :
    ∃ m1, m.set_next p q = Except.ok m1 ∧ m1.get_next p = Except.ok q ∧
      m1.budget = m.budget ∧ m1.nodes.length = m.nodes.length ∧
      (∀ b, NodePtr.heap b ≠ p → m1.cell b = m.cell b) ∧
      (∀ b nd, p = NodePtr.heap b → m.cell b = some nd →
        m1.cell b = some { value := nd.value, next_node := q }) ∧
      (∀ l, NodePtr.head l ≠ p → m1.objs l = m.objs l) ∧
      (∀ l, (m1.objs l).size_ = (m.objs l).size_) := by
  cases p with
  | null => simp [Mem.get_next] at hp
  | head l =>
    refine ⟨{ m with objs := fun i =>
      if i = l then { m.objs l with head_next_node := q } else m.objs i }, rfl, ?_, rfl, rfl,
      fun b _ => rfl, ?_, ?_, ?_⟩
    · simp [Mem.get_next]
    · intro b nd h
      cases h
    · intro l2 hl2
      have : l2 ≠ l := fun h => hl2 (by rw [h])
      simp [this]
    · intro l2
      by_cases h : l2 = l
      · subst h
        simp
      · simp [h]
  | heap a =>
    cases hc : m.cell a with
    | none => simp [Mem.get_next, hc] at hp
    | some n =>
      have hlt := cell_lt hc
      refine ⟨{ m with nodes := m.nodes.set a (some { n with next_node := q }) }, ?_, ?_, rfl,
        by simp, ?_, ?_, fun l _ => rfl, fun l => rfl⟩
      · simp [Mem.set_next, hc]
      · have : ({ m with nodes := m.nodes.set a (some { n with next_node := q }) } : Mem α).cell a
            = some { n with next_node := q } := by
          rw [cell_of_set rfl]
          simp [hlt]
        simp [Mem.get_next, this]
      · intro b hb
        have hba : b ≠ a := fun h => hb (by rw [h])
        rw [cell_of_set rfl]
        simp [hba]
      · intro b nd hb hnd
        have hba : a = b := by injection hb
        subst hba
        rw [hc] at hnd
        have hnn : n = nd := Option.some.inj hnd
        subst hnn
        rw [cell_of_set rfl]
        simp [hlt]

/-- Effect of the write of `size_`. -/
theorem set_size_spec (m : Mem α) (this v : Nat) :
    (m.set_size this v).nodes = m.nodes ∧ (m.set_size this v).budget = m.budget ∧
      ((m.set_size this v).objs this).size_ = v ∧
      (∀ l, l ≠ this → (m.set_size this v).objs l = m.objs l) ∧
      (∀ l, ((m.set_size this v).objs l).head_next_node = (m.objs l).head_next_node) := by
  refine ⟨rfl, rfl, by simp [Mem.set_size], ?_, ?_⟩
  · intro l hl
    simp [Mem.set_size, hl]
  · intro l
    by_cases h : l = this
    · subst h
      simp [Mem.set_size]
    · simp [Mem.set_size, h]

theorem get_next_congr {m m1 : Mem α} (p : NodePtr)
    (hc : ∀ b, p = NodePtr.heap b → m1.cell b = m.cell b)
    (ho : ∀ l, p = NodePtr.head l → (m1.objs l).head_next_node = (m.objs l).head_next_node) :
    m1.get_next p = m.get_next p := by
  cases p with
  | null => rfl
  | head l => simp [Mem.get_next, ho l rfl]
  | heap a => simp [Mem.get_next, hc a rfl]

theorem get_next_heap_inv {m : Mem α} {b : Nat} {q : NodePtr}
    (h : m.get_next (NodePtr.heap b) = Except.ok q) :
    ∃ nd, m.cell b = some nd ∧ nd.next_node = q := by
  cases hc : m.cell b with
  | none => simp [Mem.get_next, hc] at h
  | some nd =>
    simp [Mem.get_next, hc] at h
    exact ⟨nd, rfl, h⟩

/-- The loop of `iterator_fill` over an initializer list: entered at position `i` with
`n` elements left and `ptr` the current last node, it appends nodes holding the
remaining elements after `ptr`. -/
theorem fill_loop_il (S : List α) (this : Nat) :
    ∀ (n fuel : Nat) (m : Mem α) (ptr : NodePtr) (i : Nat),
      i + n = S.length → n < fuel → n ≤ m.budget →
      m.get_next ptr = Except.ok NodePtr.null →
      ∃ m1 cs p0,
        iterator_fill_loop (initializer_list_It S) fuel m this ptr i S.length = Except.ok m1 ∧
        m1.get_next ptr = Except.ok p0 ∧ Path m1 p0 cs NodePtr.null ∧
        cs.map Prod.snd = S.drop i ∧
        (∀ b nd, m.cell b = some nd → NodePtr.heap b ≠ ptr → m1.cell b = some nd) ∧
        (∀ b nd, m.cell b = some nd →
          ∃ nx, m1.cell b = some { value := nd.value, next_node := nx }) ∧
        (∀ l, NodePtr.head l ≠ ptr →
          (m1.objs l).head_next_node = (m.objs l).head_next_node) ∧
        (m1.objs this).size_ = Nat.iterate size_inc n (m.objs this).size_ ∧
        (∀ l, l ≠ this → (m1.objs l).size_ = (m.objs l).size_) ∧
        m1.budget + n = m.budget
  | 0, 0, _, _, _, _, hf, _, _ => by omega
  | 0, fuel + 1, m, ptr, i, hi, _, _, hptr => by
    have hil : i = S.length := by omega
    refine ⟨m, [], NodePtr.null, ?_, hptr, rfl, ?_, fun b nd h _ => h,
      fun b nd h => ⟨nd.next_node, h⟩, fun l _ => rfl, rfl, fun l _ => rfl, rfl⟩
    · simp [iterator_fill_loop, hil]
    · simp [hil]
  | n + 1, 0, _, _, _, _, hf, _, _ => by omega
  | n + 1, fuel + 1, m, ptr, i, hi, hf, hbud, hptr => by
    have hilt : i < S.length := by omega
    have hne : i ≠ S.length := by omega
    have hb : m.budget ≠ 0 := by omega
    obtain ⟨m1, hnew, hobjs1, hbud1, hlen1, hcellN, hcell1⟩ :=
      new_Node_spec m S[i] NodePtr.null hb
    have hptr_ne : ptr ≠ NodePtr.heap m.nodes.length := by
      intro h
      rw [h] at hptr
      obtain ⟨nd, hnd, _⟩ := get_next_heap_inv hptr
      have := cell_lt hnd
      omega
    have hptr1 : m1.get_next ptr = Except.ok NodePtr.null := by
      rw [← hptr]
      apply get_next_congr
      · intro b hb2
        apply hcell1
        intro h
        exact hptr_ne (by rw [hb2, h])
      · intro l _
        rw [hobjs1]
    obtain ⟨m2, hset, hget2, hbud2, hlen2, hcell2, hcellp2, hobjs2, hsize2⟩ :=
      set_next_spec m1 ptr (NodePtr.heap m.nodes.length) NodePtr.null hptr1
    obtain ⟨hn3, hb3, hs3, ho3, hh3⟩ :=
      set_size_spec m2 this (size_inc (m2.objs this).size_)
    have hget3 : (m2.set_size this (size_inc (m2.objs this).size_)).get_next ptr
        = Except.ok (NodePtr.heap m.nodes.length) := by
      rw [← hget2]
      exact get_next_congr ptr (fun b _ => cell_of_eq hn3 b) (fun l _ => hh3 l)
    have hcellN3 : (m2.set_size this (size_inc (m2.objs this).size_)).cell m.nodes.length
        = some { value := S[i], next_node := NodePtr.null } := by
      rw [cell_of_eq hn3, hcell2 _ (fun h => hptr_ne h.symm), hcellN]
    obtain ⟨m4, cs, p0, hloop, hget4, hpath4, hmap4, hfr4, hval4, hhd4, hsz4, hso4, hbud4⟩ :=
      fill_loop_il S this n fuel (m2.set_size this (size_inc (m2.objs this).size_))
        (NodePtr.heap m.nodes.length) (i + 1) (by omega) (by omega)
        (by rw [hb3, hbud2, hbud1]; omega) (get_next_heap hcellN3)
    have hgetp4 : m4.get_next ptr = Except.ok (NodePtr.heap m.nodes.length) := by
      rw [← hget3]
      apply get_next_congr
      · intro b hb2
        subst hb2
        obtain ⟨nd, hnd, _⟩ := get_next_heap_inv hget3
        rw [hnd]
        exact hfr4 b nd hnd hptr_ne
      · intro l hl
        subst hl
        exact hhd4 l (by simp)
    refine ⟨m4, (m.nodes.length, S[i]) :: cs, NodePtr.heap m.nodes.length, ?_, hgetp4, ?_, ?_,
      ?_, ?_, ?_, ?_, ?_, ?_⟩
    · simp only [iterator_fill_loop, hne, if_false, initializer_list_It,
        List.getElem?_eq_getElem hilt, ok_bind, hnew, hset, hget3]
      exact hloop
    · obtain ⟨nx, hnx⟩ := hval4 _ _ hcellN3
      obtain ⟨nd, hnd, hndq⟩ := get_next_heap_inv hget4
      rw [hnx] at hnd
      have : nd = { value := S[i], next_node := nx } := (Option.some.inj hnd).symm
      subst this
      simp at hndq
      subst hndq
      exact ⟨rfl, nx, hnx, hpath4⟩
    · simp [hmap4]
    · intro b nd hnd hbp
      have hblt := cell_lt hnd
      apply hfr4 b nd _ (by intro h; injection h with h; omega)
      rw [cell_of_eq hn3, hcell2 b hbp, hcell1 b (by omega), hnd]
    · intro b nd hnd
      have hblt := cell_lt hnd
      by_cases hbp : NodePtr.heap b = ptr
      · have h2 := hcellp2 b nd hbp.symm (by rw [hcell1 b (by omega), hnd])
        have h3 : (m2.set_size this (size_inc (m2.objs this).size_)).cell b
            = some { value := nd.value, next_node := NodePtr.heap m.nodes.length } := by
          rw [cell_of_eq hn3, h2]
        obtain ⟨nx, hnx⟩ := hval4 b _ h3
        exact ⟨nx, hnx⟩
      · exact ⟨nd.next_node, hfr4 b nd
          (by rw [cell_of_eq hn3, hcell2 b hbp, hcell1 b (by omega), hnd])
          (by intro h; injection h with h; omega)⟩
    · intro l hl
      rw [hhd4 l (by simp), hh3 l, hobjs2 l hl, hobjs1]
    · rw [hsz4, hs3, hsize2, hobjs1, Function.iterate_succ_apply]
    · intro l hl
      rw [hso4 l hl, ho3 l hl, hsize2, hobjs1]
    · rw [hb3, hbud2, hbud1] at hbud4
      omega

theorem iterate_size_inc : ∀ (n s : Nat), s + n < SIZE_MOD → Nat.iterate size_inc n s = s + n
  | 0, _, _ => rfl
  | n + 1, s, h => by
    rw [Function.iterate_succ_apply, size_inc_eq (by omega), iterate_size_inc n (s + 1) (by omega)]
    omega

theorem Clear_of_empty (fuel : Nat) (m : Mem α) (this : Nat)
    (h : (m.objs this).head_next_node = NodePtr.null) :
    Clear (fuel + 1) m this = Except.ok m := by
  simp [Clear, h]

theorem take_drop_succ_append {β : Type} (A : List β) (c : β) (B : List β) (n : Nat)
    (h : A.length = n) :
    (A ++ c :: B).take (n + 1) = A ++ [c] ∧ (A ++ c :: B).drop (n + 1) = B := by
  subst h
  constructor
  · rw [List.take_append]
    simp
  · rw [List.drop_append]
    simp

theorem advance_of_path {m : Mem α} :
    ∀ {cs : List (Nat × α)} {p q : NodePtr}, Path m p cs q →
      advance m cs.length { node_ := p } = Except.ok { node_ := q }
  | [], _, _, h => by
    have hpq : _ = _ := h
    subst hpq
    rfl
  | c :: cs, _, _, ⟨hp, nx, hc, hrest⟩ => by
    subst hp
    simp only [List.length_cons, advance, incr_heap hc, ok_bind]
    exact advance_of_path hrest

/-- The cursor reached from `before_begin()` by `k` increments, in a list whose chain
is `cs`: the sentinel for `k = 0`, otherwise the `k`-th node of the chain. -/
theorem pos_of_advance {m : Mem α} {this k : Nat} {cs : List (Nat × α)} {pos : BasicIterator}
    (hpath : Path m (m.objs this).head_next_node cs NodePtr.null)
    (hadv : advance m k (before_begin this) = Except.ok pos) (hk : k ≤ cs.length) :
    (k = 0 ∧ pos = { node_ := NodePtr.head this }) ∨
      ∃ pre c post, cs = pre ++ c :: post ∧ pre.length + 1 = k ∧
        pos = { node_ := NodePtr.heap c.1 } := by
  cases k with
  | zero =>
    left
    simp [advance, before_begin] at hadv
    exact ⟨rfl, hadv.symm⟩
  | succ j =>
    right
    have hj : j < cs.length := hk
    have hsplit : cs = cs.take j ++ cs[j] :: cs.drop (j + 1) := by
      rw [← List.drop_eq_getElem_cons hj, List.take_append_drop]
    refine ⟨cs.take j, cs[j], cs.drop (j + 1), hsplit, by simp; omega, ?_⟩
    rw [hsplit] at hpath
    obtain ⟨q, h1, h2⟩ := Path.split _ hpath
    obtain ⟨hq, _⟩ := h2
    subst hq
    have h3 := advance_of_path h1
    have hlen : (cs.take j).length = j := by simp; omega
    rw [hlen] at h3
    simp only [advance, before_begin, BasicIterator.incr, Mem.get_next, ok_bind, pure_eq_ok]
      at hadv
    rw [h3] at hadv
    injection hadv with hadv
    exact hadv.symm

/-- Effect of `InsertAfter` on the memory, for a position whose link can be read. -/
theorem InsertAfter_spec (m : Mem α) (this : Nat) (pos : BasicIterator) (x : α) (nx : NodePtr)
    (hpos : m.get_next pos.node_ = Except.ok nx) (hb : m.budget ≠ 0) :
    ∃ m3, InsertAfter m this pos x = Except.ok (m3, { node_ := NodePtr.heap m.nodes.length }) ∧
      m3.get_next pos.node_ = Except.ok (NodePtr.heap m.nodes.length) ∧
      m3.cell m.nodes.length = some { value := x, next_node := nx } ∧
      (∀ b, b ≠ m.nodes.length → NodePtr.heap b ≠ pos.node_ → m3.cell b = m.cell b) ∧
      (∀ b nd, pos.node_ = NodePtr.heap b → m.cell b = some nd →
        m3.cell b = some { value := nd.value, next_node := NodePtr.heap m.nodes.length }) ∧
      (∀ l, NodePtr.head l ≠ pos.node_ →
        (m3.objs l).head_next_node = (m.objs l).head_next_node) ∧
      (m3.objs this).size_ = size_inc (m.objs this).size_ ∧
      (∀ l, l ≠ this → (m3.objs l).size_ = (m.objs l).size_) ∧
      m3.budget = m.budget - 1 := by
  obtain ⟨m1, hnew, hobjs1, hbud1, hlen1, hcellN, hcell1⟩ := new_Node_spec m x nx hb
  have hptr_ne : pos.node_ ≠ NodePtr.heap m.nodes.length := by
    intro h
    rw [h] at hpos
    obtain ⟨nd, hnd, _⟩ := get_next_heap_inv hpos
    have := cell_lt hnd
    omega
  have hpos1 : m1.get_next pos.node_ = Except.ok nx := by
    rw [← hpos]
    apply get_next_congr
    · intro b hb2
      apply hcell1
      intro h
      exact hptr_ne (by rw [hb2, h])
    · intro l _
      rw [hobjs1]
  obtain ⟨m2, hset, hget2, hbud2, hlen2, hcell2, hcellp2, hobjs2, hsize2⟩ :=
    set_next_spec m1 pos.node_ (NodePtr.heap m.nodes.length) nx hpos1
  obtain ⟨hn3, hb3, hs3, ho3, hh3⟩ := set_size_spec m2 this (size_inc (m2.objs this).size_)
  have hget3 : (m2.set_size this (size_inc (m2.objs this).size_)).get_next pos.node_
      = Except.ok (NodePtr.heap m.nodes.length) := by
    rw [← hget2]
    exact get_next_congr pos.node_ (fun b _ => cell_of_eq hn3 b) (fun l _ => hh3 l)
  refine ⟨m2.set_size this (size_inc (m2.objs this).size_), ?_, hget3, ?_, ?_, ?_, ?_, ?_, ?_, ?_⟩
  · simp only [InsertAfter, hpos, ok_bind, hnew, hset, hget3, pure_eq_ok]
  · rw [cell_of_eq hn3, hcell2 _ (fun h => hptr_ne h.symm), hcellN]
  · intro b hbN hbp
    rw [cell_of_eq hn3, hcell2 b hbp, hcell1 b hbN]
  · intro b nd hbp hnd
    have hblt := cell_lt hnd
    rw [cell_of_eq hn3]
    exact hcellp2 b nd hbp (by rw [hcell1 b (by omega), hnd])
  · intro l hl
    rw [hh3 l, hobjs2 l hl, hobjs1]
  · rw [hs3, hsize2, hobjs1]
  · intro l hl
    rw [ho3 l hl, hsize2, hobjs1]
  · rw [hb3, hbud2, hbud1]

/-- Effect of `delete` on a live heap node. -/
theorem delete_Node_spec (m : Mem α) (d : Nat) (nd : Node α) (hd : m.cell d = some nd) :
    ∃ m1, m.delete_Node (NodePtr.heap d) = Except.ok m1 ∧ m1.objs = m.objs ∧
      m1.budget = m.budget ∧ m1.nodes.length = m.nodes.length ∧ m1.cell d = none ∧
      ∀ b, b ≠ d → m1.cell b = m.cell b := by
  have hlt := cell_lt hd
  refine ⟨{ m with nodes := m.nodes.set d none }, ?_, rfl, rfl, by simp, ?_, ?_⟩
  · simp [Mem.delete_Node, hd]
  · rw [cell_of_set rfl]
    simp [hlt]
  · intro b hb
    rw [cell_of_set rfl]
    simp [hb]

/-- Effect of `EraseAfter` on the memory, for a position whose successor is the live
heap node `d`. -/
theorem EraseAfter_spec (m : Mem α) (this : Nat) (pos : BasicIterator) (d : Nat) (nd : Node α)
    (hpos : m.get_next pos.node_ = Except.ok (NodePtr.heap d)) (hd : m.cell d = some nd)
    (hne : pos.node_ ≠ NodePtr.heap d) :
    ∃ m3, EraseAfter m this pos = Except.ok (m3, { node_ := nd.next_node }) ∧
      m3.get_next pos.node_ = Except.ok nd.next_node ∧
      m3.cell d = none ∧
      (∀ b, b ≠ d → NodePtr.heap b ≠ pos.node_ → m3.cell b = m.cell b) ∧
      (∀ b n, pos.node_ = NodePtr.heap b → m.cell b = some n →
        m3.cell b = some { value := n.value, next_node := nd.next_node }) ∧
      (∀ l, NodePtr.head l ≠ pos.node_ →
        (m3.objs l).head_next_node = (m.objs l).head_next_node) ∧
      (m3.objs this).size_ = size_dec (m.objs this).size_ ∧
      (∀ l, l ≠ this → (m3.objs l).size_ = (m.objs l).size_) ∧
      m3.budget = m.budget ∧ m3.nodes.length = m.nodes.length := by
  obtain ⟨m1, hdel, hobjs1, hbud1, hlen1, hcelld, hcell1⟩ := delete_Node_spec m d nd hd
  have hpos1 : m1.get_next pos.node_ = Except.ok (NodePtr.heap d) := by
    rw [← hpos]
    apply get_next_congr
    · intro b hb2
      apply hcell1
      intro h
      exact hne (by rw [hb2, h])
    · intro l _
      rw [hobjs1]
  obtain ⟨m2, hset, hget2, hbud2, hlen2, hcell2, hcellp2, hobjs2, hsize2⟩ :=
    set_next_spec m1 pos.node_ nd.next_node (NodePtr.heap d) hpos1
  obtain ⟨hn3, hb3, hs3, ho3, hh3⟩ := set_size_spec m2 this (size_dec (m2.objs this).size_)
  refine ⟨m2.set_size this (size_dec (m2.objs this).size_), ?_, ?_, ?_, ?_, ?_, ?_, ?_, ?_, ?_, ?_⟩
  · simp only [EraseAfter, hpos, ok_bind, get_next_heap hd, hdel, hset, pure_eq_ok]
  · rw [← hget2]
    exact get_next_congr pos.node_ (fun b _ => cell_of_eq hn3 b) (fun l _ => hh3 l)
  · rw [cell_of_eq hn3, hcell2 d (fun h => hne h.symm), hcelld]
  · intro b hbd hbp
    rw [cell_of_eq hn3, hcell2 b hbp, hcell1 b hbd]
  · intro b n hbp hn
    rw [cell_of_eq hn3]
    apply hcellp2 b n hbp
    rw [hcell1 b (fun h => hne (by rw [hbp, h])), hn]
  · intro l hl
    rw [hh3 l, hobjs2 l hl, hobjs1]
  · rw [hs3, hsize2, hobjs1]
  · intro l hl
    rw [ho3 l hl, hsize2, hobjs1]
  · rw [hb3, hbud2, hbud1]
  · rw [hn3, hlen2, hlen1]

theorem lex_cons_cons {β : Type} (r : β → β → Prop) (a b : β) (l1 l2 : List β) :
    List.Lex r (a :: l1) (b :: l2) ↔ r a b ∨ (a = b ∧ List.Lex r l1 l2) := by
  constructor
  · intro h
    cases h with
    | cons h => exact Or.inr ⟨rfl, h⟩
    | rel h => exact Or.inl h
  · rintro (h | ⟨rfl, h⟩)
    · exact List.Lex.rel h
    · exact List.Lex.cons h

theorem lex_initial_segment {β : Type} [LinearOrder β] (x : β) (T : List β) :
    ∀ S : List β, List.Lex (fun a b => a < b) S (S ++ x :: T)
  | [] => List.Lex.nil
  | _ :: S => List.Lex.cons (lex_initial_segment x T S)

theorem lex_not_self {β : Type} [LinearOrder β] :
    ∀ S : List β, ¬ List.Lex (fun a b => a < b) S S
  | [], h => by cases h
  | a :: S, h => by
    rcases (lex_cons_cons _ _ _ _ _).mp h with h1 | ⟨_, h2⟩
    · exact lt_irrefl a h1
    · exact lex_not_self S h2

/-- The library comparison on two chains: it returns, and returns `true` exactly when the
values of the first chain are lexicographically less than those of the second. -/
theorem lexicographical_compare_spec [LinearOrder α] {m : Mem α} :
    ∀ (fuel : Nat) (csA csB : List (Nat × α)) (pA pB : NodePtr),
      Path m pA csA NodePtr.null → Path m pB csB NodePtr.null → csA.length < fuel →
      ∃ r, lexicographical_compare fuel m { node_ := pA } end_ { node_ := pB } end_
          = Except.ok r ∧
        (r = true ↔ List.Lex (fun a b => a < b) (csA.map Prod.snd) (csB.map Prod.snd))
  | 0, _, _, _, _, _, _, hf => by omega
  | fuel + 1, [], [], _, _, hA, hB, _ => by
    have h1 : _ = NodePtr.null := hA
    have h2 : _ = NodePtr.null := hB
    subst h1
    subst h2
    refine ⟨false, by simp [lexicographical_compare, end_, pure_eq_ok], ?_⟩
    simp
  | fuel + 1, [], d :: csB, _, _, hA, ⟨hB, _⟩, _ => by
    have h1 : _ = NodePtr.null := hA
    subst h1
    subst hB
    refine ⟨true, by simp [lexicographical_compare, end_, pure_eq_ok], ?_⟩
    simp [List.Lex.nil]
  | fuel + 1, c :: csA, [], _, _, ⟨hA, _⟩, hB, _ => by
    have h2 : _ = NodePtr.null := hB
    subst h2
    subst hA
    refine ⟨false, by simp [lexicographical_compare, end_, pure_eq_ok], ?_⟩
    simp
  | fuel + 1, c :: csA, d :: csB, _, _, ⟨hA, nxA, hcA, hrA⟩, ⟨hB, nxB, hcB, hrB⟩, hf => by
    subst hA
    subst hB
    have hcond : ({ node_ := NodePtr.heap c.1 } : BasicIterator) ≠ end_ ∧
        ({ node_ := NodePtr.heap d.1 } : BasicIterator) ≠ end_ := by
      simp [end_]
    by_cases hlt : c.2 < d.2
    · refine ⟨true, ?_, ?_⟩
      · simp only [lexicographical_compare, deref_heap hcA, deref_heap hcB, ok_bind, hlt,
          if_true, pure_eq_ok]
        rw [if_pos hcond]
      · simp only [List.map_cons, true_iff]
        exact List.Lex.rel hlt
    · by_cases hgt : d.2 < c.2
      · refine ⟨false, ?_, ?_⟩
        · simp only [lexicographical_compare, deref_heap hcA, deref_heap hcB, ok_bind, hlt,
            hgt, if_true, if_false, pure_eq_ok]
          rw [if_pos hcond]
        · simp only [List.map_cons, Bool.false_eq_true, false_iff]
          intro hlex
          rcases (lex_cons_cons _ _ _ _ _).mp hlex with h | ⟨h, _⟩
          · exact hlt h
          · rw [h] at hgt
            exact lt_irrefl _ hgt
      · have heq : c.2 = d.2 := le_antisymm (not_lt.mp hgt) (not_lt.mp hlt)
        obtain ⟨r, hr, hiff⟩ := lexicographical_compare_spec fuel csA csB nxA nxB hrA hrB
          (by simpa using hf)
        refine ⟨r, ?_, ?_⟩
        · simp only [lexicographical_compare, deref_heap hcA, deref_heap hcB, ok_bind, hlt,
            hgt, if_false, incr_heap hcA, incr_heap hcB]
          rw [if_pos hcond]
          exact hr
        · rw [hiff, List.map_cons, List.map_cons, lex_cons_cons]
          constructor
          · intro h
            exact Or.inr ⟨heq, h⟩
          · rintro (h | ⟨_, h⟩)
            · exact absurd h hlt
            · exact h

/-- The sample memory `mem_sample` is what constructing `{1, 2, 3}` and then `{1, 2}`
leaves (heap, allocations left, and the two list objects). -/
theorem mem_sample_constructed :
    ∃ m1 m2,
      SingleLinkedList_initializer_list 4 (Mem.init Nat 9) 0 [1, 2, 3] = Except.ok m1 ∧
      SingleLinkedList_initializer_list 4 m1 1 [1, 2] = Except.ok m2 ∧
      m2.nodes = mem_sample.nodes ∧ m2.budget = mem_sample.budget ∧
      m2.objs 0 = mem_sample.objs 0 ∧ m2.objs 1 = mem_sample.objs 1 :=
  ⟨_, _, rfl, rfl, rfl, rfl, rfl, rfl⟩

/-- The sample memory `mem_0123` is what constructing `{1, 2, 3}` and then `PushFront(0)`
leaves, and `mem_023` is what `EraseAfter(begin())` then leaves. -/
theorem mem_0123_constructed :
    ∃ m1 m2 m3 it,
      SingleLinkedList_initializer_list 4 (Mem.init Nat 8) 0 [1, 2, 3] = Except.ok m1 ∧
      PushFront m1 0 0 = Except.ok m2 ∧
      m2.nodes = mem_0123.nodes ∧ m2.budget = mem_0123.budget ∧
      m2.objs 0 = mem_0123.objs 0 ∧
      EraseAfter mem_0123 0 (begin_ mem_0123 0) = Except.ok (m3, it) ∧
      m3.nodes = mem_023.nodes ∧ m3.budget = mem_023.budget ∧
      m3.objs 0 = mem_023.objs 0 :=
  ⟨_, _, _, _, rfl, rfl, rfl, rfl, rfl, rfl, rfl, rfl, rfl⟩

/-- A `new` expression with no allocation left throws and leaves the memory as it was. -/
theorem new_Node_throws (m : Mem α) (v : α) (nx : NodePtr) (hb : m.budget = 0) :
    m.new_Node v nx = Except.error (Err.bad_alloc m) := by
  simp [Mem.new_Node, hb]

theorem obj_ext {o1 o2 : SingleLinkedList} (hh : o1.head_next_node = o2.head_next_node)
    (hs : o1.size_ = o2.size_) : o1 = o2 := by
  cases o1
  cases o2
  simp at hh hs
  simp [hh, hs]

/-- A traversal reads heap cells only. -/
theorem traverse_congr {m m1 : Mem α} (hc : ∀ b, m1.cell b = m.cell b) :
    ∀ (fuel : Nat) (first last : BasicIterator),
      traverse fuel m1 first last = traverse fuel m first last
  | 0, _, _ => rfl
  | fuel + 1, first, last => by
    have hd : first.deref m1 = first.deref m := by
      unfold BasicIterator.deref Mem.get_value
      cases first.node_ <;> simp [hc]
    cases hn : first.node_ with
    | null =>
      simp [traverse, hd, BasicIterator.deref, hn, error_bind]
    | head l =>
      simp [traverse, hd, BasicIterator.deref, hn, Mem.get_value, error_bind]
    | heap a =>
      have hi : first.incr m1 = first.incr m := by
        simp [BasicIterator.incr, hn, Mem.get_next, hc]
      simp only [traverse, hd, hi]
      split
      · rfl
      · cases first.deref m with
        | error e => rfl
        | ok v =>
          cases first.incr m with
          | error e => rfl
          | ok nx =>
            simp only [ok_bind]
            rw [traverse_congr hc fuel nx last]

/-- Effect of `Clear` on a list whose chain is `cs`: every node of the chain is released,
the sentinel link becomes null, `size_` is decremented once per node, nothing else
changes. -/
theorem Clear_spec (this : Nat) :
    ∀ (cs : List (Nat × α)) (fuel : Nat) (m : Mem α),
      Path m (m.objs this).head_next_node cs NodePtr.null → cs.length < fuel →
      ∃ m1, Clear fuel m this = Except.ok m1 ∧
        (m1.objs this).head_next_node = NodePtr.null ∧
        (m1.objs this).size_ = Nat.iterate size_dec cs.length (m.objs this).size_ ∧
        (∀ l, l ≠ this → m1.objs l = m.objs l) ∧
        (∀ b, b ∉ cs.map Prod.fst → m1.cell b = m.cell b) ∧
        (∀ c ∈ cs, m1.cell c.1 = none) ∧
        m1.budget = m.budget ∧ m1.nodes.length = m.nodes.length
  | _, 0, _, _, hf => by omega
  | [], fuel + 1, m, hp, _ => by
    have hnull : (m.objs this).head_next_node = NodePtr.null := hp
    exact ⟨m, Clear_of_empty fuel m this hnull, hnull, rfl, fun _ _ => rfl, fun _ _ => rfl,
      (fun c hc => by cases hc), rfl, rfl⟩
  | c :: cs, fuel + 1, m, hp, hf => by
    have hnm := Path.head_not_mem hp
    obtain ⟨hhead, nx, hc, hrest⟩ := hp
    have hne : (m.objs this).head_next_node ≠ NodePtr.null := by
      rw [hhead]
      simp
    obtain ⟨m1, hset, hget1, hbud1, hlen1, hcell1, _, hobjs1, hsize1⟩ :=
      set_next_spec m (NodePtr.head this) nx (m.objs this).head_next_node rfl
    obtain ⟨hn2, hb2, hs2, ho2, hh2⟩ := set_size_spec m1 this (size_dec (m1.objs this).size_)
    have hc2 : (m1.set_size this (size_dec (m1.objs this).size_)).cell c.1
        = some { value := c.2, next_node := nx } := by
      rw [cell_of_eq hn2, hcell1 c.1 (by simp), hc]
    obtain ⟨m3, hdel, hobjs3, hbud3, hlen3, hcelld, hcell3⟩ :=
      delete_Node_spec (m1.set_size this (size_dec (m1.objs this).size_)) c.1 _ hc2
    have hhead1 : (m1.objs this).head_next_node = nx := by
      simpa [Mem.get_next] using hget1
    have hhead3 : (m3.objs this).head_next_node = nx := by
      rw [hobjs3, hh2, hhead1]
    have hkeep : ∀ b, b ≠ c.1 → m3.cell b = m.cell b := by
      intro b hb
      rw [hcell3 b hb, cell_of_eq hn2, hcell1 b (by simp)]
    have hpath3 : Path m3 (m3.objs this).head_next_node cs NodePtr.null := by
      rw [hhead3]
      apply Path.frame hrest
      intro d hd
      apply hkeep
      intro h
      exact hnm (List.mem_map.mpr ⟨d, hd, h⟩)
    obtain ⟨m4, hclear, hnull4, hsize4, hobjs4, hcell4, hnone4, hbud4, hlen4⟩ :=
      Clear_spec this cs fuel m3 hpath3 (by simpa using hf)
    refine ⟨m4, ?_, hnull4, ?_, ?_, ?_, ?_, ?_, ?_⟩
    · simp only [Clear, hhead, get_next_heap hc, ok_bind]
      rw [if_neg (by simp)]
      simp only [hset, ok_bind, hdel]
      exact hclear
    · rw [hsize4, hobjs3, hs2, hsize1, List.length_cons, Function.iterate_succ_apply]
    · intro l hl
      rw [hobjs4 l hl, hobjs3, ho2 l hl, hobjs1 l (by simpa using hl)]
    · intro b hb
      simp only [List.map_cons, List.mem_cons, not_or] at hb
      rw [hcell4 b hb.2, hkeep b hb.1]
    · intro d hd
      rcases List.mem_cons.mp hd with h | h
      · subst h
        rw [hcell4 d.1 hnm, hcelld]
      · exact hnone4 d h
    · rw [hbud4, hbud3, hb2, hbud1]
    · rw [hlen4, hlen3, hn2, hlen1]

/-- Effect of `swap` on two lists whose sentinel links differ: the two list objects are
exchanged, the heap is untouched, the local list ends empty. -/
theorem swap_spec (fuel : Nat) (m : Mem α) (this rhs x : Nat)
    (hne : (m.objs this).head_next_node ≠ (m.objs rhs).head_next_node)
    (hx : x ≠ this) (hx2 : x ≠ rhs) :
    ∃ m1, swap (fuel + 1) m this rhs x = Except.ok m1 ∧ m1.nodes = m.nodes ∧
      m1.budget = m.budget ∧ m1.objs this = m.objs rhs ∧ m1.objs rhs = m.objs this ∧
      m1.objs x = { } ∧ ∀ l, l ≠ this → l ≠ rhs → l ≠ x → m1.objs l = m.objs l := by
  have hthis : this ≠ rhs := by
    intro h
    rw [h] at hne
    exact hne rfl
  have hx' : this ≠ x := fun h => hx h.symm
  have hx2' : rhs ≠ x := fun h => hx2 h.symm
  have hthis' : rhs ≠ this := fun h => hthis h.symm
  refine ⟨swap_size_ (swap_next_node (swap_size_ (swap_next_node (swap_size_
    (swap_next_node (SingleLinkedList_default m x) x rhs) x rhs) this x) this x) x rhs) x rhs,
    ?_, rfl, rfl, ?_, ?_, ?_, ?_⟩
  · simp only [swap, hne, if_true, ne_eq, not_false_eq_true, SingleLinkedList_destructor]
    apply Clear_of_empty
    simp [swap_next_node, swap_size_, Mem.set_size, SingleLinkedList_default, hx, hx2, hx',
      hx2', hthis, hthis']
  · apply obj_ext <;>
      simp [swap_next_node, swap_size_, Mem.set_size, SingleLinkedList_default, hx, hx2, hx',
        hx2', hthis, hthis']
  · apply obj_ext <;>
      simp [swap_next_node, swap_size_, Mem.set_size, SingleLinkedList_default, hx, hx2, hx',
        hx2', hthis, hthis']
  · apply obj_ext <;>
      simp [swap_next_node, swap_size_, Mem.set_size, SingleLinkedList_default, hx, hx2, hx',
        hx2', hthis, hthis']
  · intro l h1 h2 h3
    apply obj_ext <;>
      simp [swap_next_node, swap_size_, Mem.set_size, SingleLinkedList_default, h1, h2, h3]

theorem toList_of_path {m : Mem α} {this : Nat} {cs : List (Nat × α)} (fuel : Nat)
    (hp : Path m (m.objs this).head_next_node cs NodePtr.null) (hf : cs.length < fuel) :
    toList fuel m this = Except.ok (cs.map Prod.snd) :=
  traverse_of_path fuel hp hf

theorem path_of_toList {m : Mem α} {this : Nat} {S : List α} {fuel : Nat}
    (h : toList fuel m this = Except.ok S) :
    ∃ cs, Path m (m.objs this).head_next_node cs NodePtr.null ∧ cs.map Prod.snd = S ∧
      cs.length < fuel := by
  obtain ⟨cs, hp, hm, hl⟩ := path_of_traverse fuel h
  exact ⟨cs, hp, hm, by rw [← List.length_map cs Prod.snd, hm]; exact hl⟩

/-- The traversal of a list is determined by the heap cells and its sentinel link. -/
theorem toList_congr {m m1 : Mem α} {a b : Nat} (fuel : Nat)
    (hc : ∀ c, m1.cell c = m.cell c)
    (hh : (m1.objs a).head_next_node = (m.objs b).head_next_node) :
    toList fuel m1 a = toList fuel m b := by
  unfold toList begin_
  rw [hh]
  exact traverse_congr hc fuel _ _

theorem Kept.refl (m : Mem α) (this : Nat) (ptr : NodePtr) : Kept m m this ptr :=
  ⟨fun _ _ h _ => h, fun _ nd h => ⟨nd.next_node, h⟩, fun _ _ => rfl, fun _ _ => rfl,
    Nat.le_refl _⟩

/-- The loop of `iterator_fill` over the nodes of another list: entered with the chain
`cs` still to copy and `ptr` the current last node, it either appends fresh nodes holding
the values of `cs` after `ptr`, or throws at the first node it cannot create; in both
cases the memory reached keeps the rest of the memory. -/
theorem fill_loop_copy (this : Nat) :
    ∀ (cs : List (Nat × α)) (fuel : Nat) (m : Mem α) (ptr p : NodePtr),
      Path m p cs NodePtr.null → cs.length < fuel →
      m.get_next ptr = Except.ok NodePtr.null → (∀ c ∈ cs, NodePtr.heap c.1 ≠ ptr) →
      ∃ m1, Kept m m1 this ptr ∧
        ((cs.length ≤ m.budget ∧
            iterator_fill_loop ConstIterator_It fuel m this ptr { node_ := p } end_
              = Except.ok m1 ∧
            ∃ cs1 p0, m1.get_next ptr = Except.ok p0 ∧ Path m1 p0 cs1 NodePtr.null ∧
              cs1.map Prod.snd = cs.map Prod.snd ∧ (∀ c ∈ cs1, m.nodes.length ≤ c.1) ∧
              (m1.objs this).size_ = Nat.iterate size_inc cs.length (m.objs this).size_ ∧
              m1.budget + cs.length = m.budget) ∨
          (m.budget < cs.length ∧
            iterator_fill_loop ConstIterator_It fuel m this ptr { node_ := p } end_
              = Except.error (Err.bad_alloc m1)))
  | _, 0, _, _, _, _, hf, _, _ => by omega
  | [], fuel + 1, m, ptr, p, hp, _, hptr, _ => by
    have hnull : p = NodePtr.null := hp
    subst hnull
    refine ⟨m, Kept.refl m this ptr, Or.inl ⟨Nat.zero_le _, ?_, [], NodePtr.null, hptr, rfl,
      rfl, (fun c hc => by cases hc), rfl, rfl⟩⟩
    simp [iterator_fill_loop, end_]
  | c :: cs, fuel + 1, m, ptr, p, ⟨hp, nx, hc, hrest⟩, hf, hptr, hnot => by
    subst hp
    have hne : ({ node_ := NodePtr.heap c.1 } : BasicIterator) ≠ end_ := by simp [end_]
    have hderef : ConstIterator_It.deref m { node_ := NodePtr.heap c.1 } = Except.ok c.2 := by
      simpa [ConstIterator_It] using deref_heap hc
    by_cases hb : m.budget = 0
    · refine ⟨m, Kept.refl m this ptr, Or.inr ⟨by simp [hb], ?_⟩⟩
      simp only [iterator_fill_loop, hne, if_false, hderef, ok_bind, new_Node_throws m _ _ hb,
        error_bind]
    · have hlt := Path.addr_lt hrest
      have hclt := cell_lt hc
      obtain ⟨m1, hnew, hobjs1, hbud1, hlen1, hcellN, hcell1⟩ :=
        new_Node_spec m c.2 NodePtr.null hb
      have hptr_ne : ptr ≠ NodePtr.heap m.nodes.length := by
        intro h
        rw [h] at hptr
        obtain ⟨nd, hnd, _⟩ := get_next_heap_inv hptr
        have := cell_lt hnd
        omega
      have hptr1 : m1.get_next ptr = Except.ok NodePtr.null := by
        rw [← hptr]
        apply get_next_congr
        · intro b hb2
          apply hcell1
          intro h
          exact hptr_ne (by rw [hb2, h])
        · intro l _
          rw [hobjs1]
      obtain ⟨m2, hset, hget2, hbud2, hlen2, hcell2, hcellp2, hobjs2, hsize2⟩ :=
        set_next_spec m1 ptr (NodePtr.heap m.nodes.length) NodePtr.null hptr1
      obtain ⟨hn3, hb3, hs3, ho3, hh3⟩ :=
        set_size_spec m2 this (size_inc (m2.objs this).size_)
      have hget3 : (m2.set_size this (size_inc (m2.objs this).size_)).get_next ptr
          = Except.ok (NodePtr.heap m.nodes.length) := by
        rw [← hget2]
        exact get_next_congr ptr (fun b _ => cell_of_eq hn3 b) (fun l _ => hh3 l)
      have hcellN3 : (m2.set_size this (size_inc (m2.objs this).size_)).cell m.nodes.length
          = some { value := c.2, next_node := NodePtr.null } := by
        rw [cell_of_eq hn3, hcell2 _ (fun h => hptr_ne h.symm), hcellN]
      have hold : ∀ b nd, m.cell b = some nd → NodePtr.heap b ≠ ptr →
          (m2.set_size this (size_inc (m2.objs this).size_)).cell b = some nd := by
        intro b nd hnd hbp
        have hblt := cell_lt hnd
        rw [cell_of_eq hn3, hcell2 b hbp, hcell1 b (by omega), hnd]
      have hc3 := hold c.1 _ hc (hnot c (List.mem_cons_self c cs))
      have hincr : ConstIterator_It.incr (m2.set_size this (size_inc (m2.objs this).size_))
          { node_ := NodePtr.heap c.1 } = Except.ok { node_ := nx } := by
        simpa [ConstIterator_It] using incr_heap hc3
      have hrest3 : Path (m2.set_size this (size_inc (m2.objs this).size_)) nx cs
          NodePtr.null := by
        apply Path.frame hrest
        intro d hd
        obtain ⟨nd, hnd⟩ : ∃ nd, m.cell d.1 = some nd := by
          have hdl := hlt d hd
          cases hcd : m.cell d.1 with
          | some nd => exact ⟨nd, rfl⟩
          | none =>
            exfalso
            obtain ⟨l1, l2, hsp⟩ := List.append_of_mem hd
            rw [hsp] at hrest
            obtain ⟨q, _, _, nx2, hd2, _⟩ := Path.split l1 hrest
            rw [hcd] at hd2
            cases hd2
        rw [hold d.1 nd hnd (hnot d (List.mem_cons_of_mem c hd)), hnd]
      obtain ⟨m4, hkept4, hcase⟩ :=
        fill_loop_copy this cs fuel (m2.set_size this (size_inc (m2.objs this).size_))
          (NodePtr.heap m.nodes.length) nx hrest3 (by simpa using hf)
          (get_next_heap hcellN3)
          (fun d hd h => by
            have hdl := hlt d hd
            injection h with h
            omega)
      obtain ⟨hfr4, hval4, hhd4, hso4, hle4⟩ := hkept4
      have hkept : Kept m m4 this ptr := by
        refine ⟨?_, ?_, ?_, ?_, ?_⟩
        · intro b nd hnd hbp
          have hblt := cell_lt hnd
          exact hfr4 b nd (hold b nd hnd hbp) (by intro h; injection h with h; omega)
        · intro b nd hnd
          have hblt := cell_lt hnd
          by_cases hbp : NodePtr.heap b = ptr
          · have h2 := hcellp2 b nd hbp.symm (by rw [hcell1 b (by omega), hnd])
            have h3 : (m2.set_size this (size_inc (m2.objs this).size_)).cell b
                = some { value := nd.value, next_node := NodePtr.heap m.nodes.length } := by
              rw [cell_of_eq hn3, h2]
            obtain ⟨nx1, hnx1⟩ := hval4 b _ h3
            exact ⟨nx1, hnx1⟩
          · exact ⟨nd.next_node, hfr4 b nd (hold b nd hnd hbp)
              (by intro h; injection h with h; omega)⟩
        · intro l hl
          rw [hhd4 l (by simp), hh3 l, hobjs2 l hl, hobjs1]
        · intro l hl
          rw [hso4 l hl, ho3 l hl, hsize2, hobjs1]
        · have : (m2.set_size this (size_inc (m2.objs this).size_)).nodes.length
              = m.nodes.length + 1 := by rw [hn3, hlen2, hlen1]
          omega
      refine ⟨m4, hkept, ?_⟩
      have hunfold : iterator_fill_loop ConstIterator_It (fuel + 1) m this ptr
          { node_ := NodePtr.heap c.1 } end_
          = iterator_fill_loop ConstIterator_It fuel
              (m2.set_size this (size_inc (m2.objs this).size_)) this
              (NodePtr.heap m.nodes.length) { node_ := nx } end_ := by
        simp only [iterator_fill_loop, hne, if_false, hderef, ok_bind, hnew, hset, hincr, hget3]
      rcases hcase with ⟨hbud, hloop, cs1, p0, hget4, hpath4, hmap4, hge4, hsz4, hbud4⟩ |
        ⟨hbud, hloop⟩
      · left
        have hgetp4 : m4.get_next ptr = Except.ok (NodePtr.heap m.nodes.length) := by
          rw [← hget3]
          apply get_next_congr
          · intro b hb2
            subst hb2
            obtain ⟨nd, hnd, _⟩ := get_next_heap_inv hget3
            rw [hnd]
            exact hfr4 b nd hnd hptr_ne
          · intro l hl
            subst hl
            exact hhd4 l (by simp)
        refine ⟨?_, ?_, (m.nodes.length, c.2) :: cs1, NodePtr.heap m.nodes.length, hgetp4, ?_,
          ?_, ?_, ?_, ?_⟩
        · rw [hb3, hbud2, hbud1] at hbud
          simp only [List.length_cons]
          omega
        · rw [hunfold]
          exact hloop
        · obtain ⟨nx1, hnx1⟩ := hval4 _ _ hcellN3
          obtain ⟨nd, hnd, hndq⟩ := get_next_heap_inv hget4
          rw [hnx1] at hnd
          have : nd = { value := c.2, next_node := nx1 } := (Option.some.inj hnd).symm
          subst this
          simp at hndq
          subst hndq
          exact ⟨rfl, nx1, hnx1, hpath4⟩
        · simp [hmap4]
        · intro d hd
          rcases List.mem_cons.mp hd with h | h
          · subst h
            exact Nat.le_refl _
          · have := hge4 d h
            rw [hn3, hlen2, hlen1] at this
            omega
        · rw [hsz4, hs3, hsize2, hobjs1, List.length_cons, Function.iterate_succ_apply]
        · rw [hb3, hbud2, hbud1] at hbud4
          simp only [List.length_cons]
          omega
      · right
        refine ⟨?_, ?_⟩
        · rw [hb3, hbud2, hbud1] at hbud
          simp only [List.length_cons]
          omega
        · rw [hunfold]
          exact hloop

/-- The copy constructor building the list `x` from a list `b` whose chain is `cs`: it
either returns with `x` a chain of fresh nodes holding the values of `cs`, or throws at
the first node it cannot create; in both cases every cell that was live and every list
object other than `x` is kept. -/
theorem copy_ctor_spec (m : Mem α) (x b : Nat) (cs : List (Nat × α)) (fuel : Nat)
    (hx : x ≠ b) (hB : Path m (m.objs b).head_next_node cs NodePtr.null)
    (hf : cs.length < fuel) :
    ∃ m1, (∀ c nd, m.cell c = some nd → m1.cell c = some nd) ∧
      (∀ l, l ≠ x → m1.objs l = m.objs l) ∧ m.nodes.length ≤ m1.nodes.length ∧
      ((cs.length ≤ m.budget ∧ SingleLinkedList_copy fuel m x b = Except.ok m1 ∧
          ∃ cs1, Path m1 (m1.objs x).head_next_node cs1 NodePtr.null ∧
            cs1.map Prod.snd = cs.map Prod.snd ∧ (∀ c ∈ cs1, m.nodes.length ≤ c.1) ∧
            (m1.objs x).size_ = Nat.iterate size_inc cs.length 0 ∧
            m1.budget + cs.length = m.budget) ∨
        (m.budget < cs.length ∧
          SingleLinkedList_copy fuel m x b = Except.error (Err.bad_alloc m1))) := by
  obtain ⟨f, rfl⟩ : ∃ f, fuel = f + 1 := ⟨fuel - 1, by omega⟩
  have hbx : b ≠ x := fun h => hx h.symm
  have h0 : ((SingleLinkedList_default m x).objs x).head_next_node = NodePtr.null := by
    simp [SingleLinkedList_default]
  have hs0 : ((SingleLinkedList_default m x).objs x).size_ = 0 := by
    simp [SingleLinkedList_default]
  have hother : ∀ l, l ≠ x → (SingleLinkedList_default m x).objs l = m.objs l := by
    intro l hl
    simp [SingleLinkedList_default, hl]
  have hclear := Clear_of_empty f (SingleLinkedList_default m x) x h0
  have hbegin : begin_ (SingleLinkedList_default m x) b
      = { node_ := (m.objs b).head_next_node } := by
    simp [begin_, hother b hbx]
  have hB0 : Path (SingleLinkedList_default m x) (m.objs b).head_next_node cs NodePtr.null :=
    Path.frame hB (fun _ _ => rfl)
  cases cs with
  | nil =>
    have hnull : (m.objs b).head_next_node = NodePtr.null := hB
    refine ⟨SingleLinkedList_default m x, fun c nd h => h, hother, Nat.le_refl _,
      Or.inl ⟨Nat.zero_le _, ?_, [], ?_, rfl, (fun c hc => by cases hc), hs0, rfl⟩⟩
    · simp [SingleLinkedList_copy, iterator_fill, hclear, ok_bind, hbegin, hnull, end_,
        pure_eq_ok]
    · exact h0
  | cons c cs =>
    obtain ⟨m1, ⟨hfr, _, hhd, hso, hle⟩, hcase⟩ :=
      fill_loop_copy x (c :: cs) (f + 1) (SingleLinkedList_default m x) (NodePtr.head x)
        (m.objs b).head_next_node hB0 hf (by simp [Mem.get_next, h0]) (fun _ _ => by simp)
    have hne : ¬ (({ node_ := (m.objs b).head_next_node } : BasicIterator) = end_) := by
      rw [hB.1]
      simp [end_]
    have hunfold : SingleLinkedList_copy (f + 1) m x b
        = iterator_fill_loop ConstIterator_It (f + 1) (SingleLinkedList_default m x) x
            (NodePtr.head x) { node_ := (m.objs b).head_next_node } end_ := by
      simp only [SingleLinkedList_copy, iterator_fill, hclear, ok_bind, hbegin, hne, if_false]
      rfl
    refine ⟨m1, fun c nd h => hfr c nd h (by simp), ?_, hle, ?_⟩
    · intro l hl
      rw [← hother l hl]
      exact obj_ext (hhd l (by simpa using hl)) (hso l hl)
    · rcases hcase with ⟨hbud, hloop, cs1, p0, hget, hpath, hmap, hge, hsz, hbud1⟩ |
        ⟨hbud, hloop⟩
      · left
        have hp0 : (m1.objs x).head_next_node = p0 := by
          simpa [Mem.get_next] using hget
        refine ⟨hbud, by rw [hunfold]; exact hloop, cs1, by rw [hp0]; exact hpath, hmap, hge,
          ?_, hbud1⟩
        rw [hsz, hs0]
      · right
        exact ⟨hbud, by rw [hunfold]; exact hloop⟩

theorem Path.mono {m m1 : Mem α}
    (h : ∀ c nd, m.cell c = some nd → m1.cell c = some nd) :
    ∀ {cs : List (Nat × α)} {p q : NodePtr}, Path m p cs q → Path m1 p cs q
  | [], _, _, hp => hp
  | _ :: _, _, _, ⟨hp, nx, hc, hrest⟩ => ⟨hp, nx, h _ _ hc, Path.mono h hrest⟩

theorem Path.mem_cell {m : Mem α} :
    ∀ {cs : List (Nat × α)} {p q : NodePtr}, Path m p cs q →
      ∀ c ∈ cs, ∃ nx, m.cell c.1 = some { value := c.2, next_node := nx }
  | [], _, _, _, c, hc => by cases hc
  | d :: cs, _, _, ⟨_, nx, hd, hrest⟩, c, hc => by
    rcases List.mem_cons.mp hc with h | h
    · subst h
      exact ⟨nx, hd⟩
    · exact Path.mem_cell hrest c h

/-- A position reached from `before_begin()` within the list is the sentinel or a node of
the chain, and its link can be read. -/
theorem insert_position {m : Mem α} {this k : Nat} {cs : List (Nat × α)} {pos : BasicIterator}
    (hpath : Path m (m.objs this).head_next_node cs NodePtr.null)
    (hadv : advance m k (before_begin this) = Except.ok pos) (hk : k ≤ cs.length) :
    (∃ nx, m.get_next pos.node_ = Except.ok nx) ∧
      (pos.node_ = NodePtr.head this ∨ ∃ c ∈ cs, pos.node_ = NodePtr.heap c.1) := by
  rcases pos_of_advance hpath hadv hk with ⟨_, hp⟩ | ⟨pre, c, post, hcs, _, hp⟩
  · subst hp
    exact ⟨⟨_, rfl⟩, Or.inl rfl⟩
  · subst hp
    have hmem : c ∈ cs := by
      rw [hcs]
      simp
    obtain ⟨nx, hc⟩ := Path.mem_cell hpath c hmem
    exact ⟨⟨nx, get_next_heap hc⟩, Or.inr ⟨c, hmem, rfl⟩⟩

/-- A position reached from `before_begin()` that has a successor: the successor is a live
node of the chain, different from the position. -/
theorem erase_position {m : Mem α} {this k : Nat} {cs : List (Nat × α)} {pos : BasicIterator}
    (hpath : Path m (m.objs this).head_next_node cs NodePtr.null)
    (hadv : advance m k (before_begin this) = Except.ok pos) (hk : k < cs.length) :
    (∃ d ∈ cs, ∃ nd, m.get_next pos.node_ = Except.ok (NodePtr.heap d.1) ∧
        m.cell d.1 = some nd ∧ pos.node_ ≠ NodePtr.heap d.1) ∧
      (pos.node_ = NodePtr.head this ∨ ∃ c ∈ cs, pos.node_ = NodePtr.heap c.1) := by
  rcases pos_of_advance hpath hadv (Nat.le_of_lt hk) with
    ⟨hk0, hp⟩ | ⟨pre, c, post, hcs, hpl, hp⟩
  · subst hp
    cases cs with
    | nil => simp at hk
    | cons d post =>
      obtain ⟨hp0, q, hd, _⟩ := hpath
      exact ⟨⟨d, List.mem_cons_self d post, _, by simp [Mem.get_next, hp0], hd, by simp⟩,
        Or.inl rfl⟩
  · subst hp
    subst hcs
    cases post with
    | nil =>
      simp at hk
      omega
    | cons d post =>
      have hnd := Path.nodup hpath
      rw [List.map_append, List.map_cons, List.nodup_middle, List.nodup_cons] at hnd
      have hcd : c.1 ≠ d.1 := by
        intro h
        apply hnd.1
        simp [h]
      obtain ⟨q0, _, _, nx, hc, hnx, q, hd, _⟩ := Path.split pre hpath
      subst hnx
      exact ⟨⟨d, by simp, _, get_next_heap hc, hd, by simpa using hcd⟩,
        Or.inr ⟨c, by simp, rfl⟩⟩

/-- Two lists on disjoint chains are independent: mutating one within the preconditions
leaves the traversal of the other as it was. -/
theorem independent_of_disjoint (fuel : Nat) (m : Mem α) (c b : Nat)
    (csC csB : List (Nat × α))
    (hC : Path m (m.objs c).head_next_node csC NodePtr.null)
    (hB : Path m (m.objs b).head_next_node csB NodePtr.null)
    (hcb : c ≠ b) (hdisj : ∀ d ∈ csC, ∀ e ∈ csB, d.1 ≠ e.1) (hf : csB.length < fuel) :
    Independent fuel m c b csC.length (csB.map Prod.snd) := by
  have hbc : b ≠ c := fun h => hcb h.symm
  have hlt := Path.addr_lt hB
  have hkeep : ∀ m2 : Mem α, (∀ e ∈ csB, m2.cell e.1 = m.cell e.1) →
      (m2.objs b).head_next_node = (m.objs b).head_next_node →
      toList fuel m2 b = Except.ok (csB.map Prod.snd) := by
    intro m2 hcells hhead
    apply toList_of_path fuel _ hf
    rw [hhead]
    exact Path.frame hB hcells
  refine ⟨?_, ?_, ?_⟩
  · intro v m2 hpush
    by_cases hb : m.budget = 0
    · simp [PushFront, Mem.new_Node, hb, error_bind] at hpush
    · rw [PushFront_ok m c v hb] at hpush
      injection hpush with hpush
      subst hpush
      apply hkeep
      · intro e he
        rw [cell_of_append rfl]
        simp [Nat.ne_of_lt (hlt e he)]
      · simp [hbc]
  · intro k pos v m2 it hk hadv hins
    obtain ⟨⟨nx, hget⟩, hwhere⟩ := insert_position hC hadv hk
    by_cases hb : m.budget = 0
    · simp [InsertAfter, hget, ok_bind, Mem.new_Node, hb, error_bind] at hins
    · obtain ⟨m3, hspec, _, _, hfr, _, hhd, _, _, _⟩ :=
        InsertAfter_spec m c pos v nx hget hb
      rw [hspec] at hins
      injection hins with hins
      injection hins with hm _
      subst hm
      have hposne : ∀ e ∈ csB, NodePtr.heap e.1 ≠ pos.node_ := by
        intro e he h
        rcases hwhere with hw | ⟨d, hd, hw⟩
        · rw [hw] at h
          cases h
        · rw [hw] at h
          injection h with h
          exact hdisj d hd e he h.symm
      apply hkeep
      · intro e he
        exact hfr e.1 (Nat.ne_of_lt (hlt e he)) (hposne e he)
      · apply hhd b
        intro h
        rcases hwhere with hw | ⟨d, _, hw⟩
        · rw [hw] at h
          injection h with h
          exact hbc h
        · rw [hw] at h
          cases h
  · intro k pos m2 it hk hadv hers
    obtain ⟨⟨d, hdmem, nd, hget, hd, hne⟩, hwhere⟩ := erase_position hC hadv hk
    obtain ⟨m3, hspec, _, _, hfr, _, hhd, _, _, _, _⟩ :=
      EraseAfter_spec m c pos d.1 nd hget hd hne
    rw [hspec] at hers
    injection hers with hers
    injection hers with hm _
    subst hm
    have hposne : ∀ e ∈ csB, NodePtr.heap e.1 ≠ pos.node_ := by
      intro e he h
      rcases hwhere with hw | ⟨d2, hd2, hw⟩
      · rw [hw] at h
        cases h
      · rw [hw] at h
        injection h with h
        exact hdisj d2 hd2 e he h.symm
    apply hkeep
    · intro e he
      exact hfr e.1 (fun h => hdisj d hdmem e he h.symm) (hposne e he)
    · apply hhd b
      intro h
      rcases hwhere with hw | ⟨d2, _, hw⟩
      · rw [hw] at h
        injection h with h
        exact hbc h
      · rw [hw] at h
        cases h

/-- Effect of a copy assignment `a = b` that copies: `a` becomes a chain of fresh nodes
holding the values of `b`, the old nodes of `a` are released, `b` is kept. -/
theorem operator_assign_spec (m : Mem α) (a b x x1 : Nat) (csA csB : List (Nat × α))
    (fuel : Nat)
    (hA : Path m (m.objs a).head_next_node csA NodePtr.null)
    (hB : Path m (m.objs b).head_next_node csB NodePtr.null)
    (hdisj : ∀ ca ∈ csA, ∀ cb ∈ csB, ca.1 ≠ cb.1)
    (hne : (m.objs a).head_next_node ≠ (m.objs b).head_next_node)
    (hfA : csA.length < fuel) (hfB : csB.length < fuel) (hbud : csB.length ≤ m.budget)
    (hxa : x ≠ a) (hxb : x ≠ b) (hx1a : x1 ≠ a) (hx1b : x1 ≠ b) (hx1x : x1 ≠ x) :
    ∃ m3 cs1, operator_assign fuel m a b x x1 = Except.ok m3 ∧
      Path m3 (m3.objs a).head_next_node cs1 NodePtr.null ∧
      cs1.map Prod.snd = csB.map Prod.snd ∧ (∀ c ∈ cs1, m.nodes.length ≤ c.1) ∧
      (m3.objs a).size_ = Nat.iterate size_inc csB.length 0 ∧
      m3.objs b = m.objs b ∧ Path m3 (m3.objs b).head_next_node csB NodePtr.null := by
  obtain ⟨f, rfl⟩ : ∃ f, fuel = f + 1 := ⟨fuel - 1, by omega⟩
  have hab : a ≠ b := by
    intro h
    rw [h] at hne
    exact hne rfl
  have hltA := Path.addr_lt hA
  have hltB := Path.addr_lt hB
  obtain ⟨m1, hcells1, hobjs1, _, hcase⟩ := copy_ctor_spec m x b csB (f + 1) hxb hB hfB
  rcases hcase with ⟨_, hcopy, cs1, hpath1, hmap1, hge1, hsz1, _⟩ | ⟨hlt, _⟩
  · have hoa1 := hobjs1 a (fun h => hxa h.symm)
    have hob1 := hobjs1 b (fun h => hxb h.symm)
    have hlen1 : cs1.length = csB.length := by
      have := congrArg List.length hmap1
      simpa using this
    have hne1 : (m1.objs a).head_next_node ≠ (m1.objs x).head_next_node := by
      rw [hoa1]
      cases cs1 with
      | nil =>
        have hx0 : (m1.objs x).head_next_node = NodePtr.null := hpath1
        have hB0 : csB = [] := List.length_eq_zero.mp (by rw [← hlen1]; rfl)
        subst hB0
        have hb0 : (m.objs b).head_next_node = NodePtr.null := hB
        rw [hx0, ← hb0]
        exact hne
      | cons c1 cs1 =>
        rw [hpath1.1]
        have hc1 := hge1 c1 (List.mem_cons_self c1 cs1)
        cases csA with
        | nil =>
          have ha0 : (m.objs a).head_next_node = NodePtr.null := hA
          rw [ha0]
          simp
        | cons ca csA =>
          rw [hA.1]
          have hca := hltA ca (List.mem_cons_self ca csA)
          intro h
          injection h with h
          omega
    obtain ⟨m2, hswap, hnodes2, _, hoa2, hox2, _, hoo2⟩ :=
      swap_spec f m1 a x x1 hne1 hx1a hx1x
    have hcells2 : ∀ c, m2.cell c = m1.cell c := cell_of_eq hnodes2
    have hpathx2 : Path m2 (m2.objs x).head_next_node csA NodePtr.null := by
      rw [hox2, hoa1]
      apply Path.mono _ hA
      intro c nd h
      rw [hcells2]
      exact hcells1 c nd h
    obtain ⟨m3, hclear, _, _, hobjs3, hcells3, _, _, _⟩ :=
      Clear_spec x csA (f + 1) m2 hpathx2 hfA
    have hoa3 : m3.objs a = m1.objs x := by
      rw [hobjs3 a (fun h => hxa h.symm), hoa2]
    have hob3 : m3.objs b = m.objs b := by
      rw [hobjs3 b (fun h => hxb h.symm),
        hoo2 b (fun h => hab h.symm) (fun h => hxb h.symm) (fun h => hx1b h.symm), hob1]
    refine ⟨m3, cs1, ?_, ?_, hmap1, hge1, ?_, hob3, ?_⟩
    · simp only [operator_assign, hne, ne_eq, not_false_eq_true, if_true, hcopy, ok_bind, hswap,
        SingleLinkedList_destructor]
      exact hclear
    · rw [hoa3]
      apply Path.frame hpath1
      intro c hc
      rw [hcells3, hcells2]
      intro hmem
      obtain ⟨d, hd, hdc⟩ := List.mem_map.mp hmem
      have h1 := hltA d hd
      have h2 := hge1 c hc
      omega
    · rw [hoa3, hsz1]
    · rw [hob3]
      apply Path.frame hB
      intro c hc
      obtain ⟨nx, hcell⟩ := Path.mem_cell hB c hc
      rw [hcells3, hcells2, hcells1 c.1 _ hcell, hcell]
      intro hmem
      obtain ⟨d, hd, hdc⟩ := List.mem_map.mp hmem
      exact hdisj d hd c hc hdc
  · omega

/-- Two lists on disjoint chains that are not both empty have different sentinel links,
so that `begin()` differs. -/
theorem heads_ne_of_disjoint {m : Mem α} {a b : Nat} {csA csB : List (Nat × α)}
    (hA : Path m (m.objs a).head_next_node csA NodePtr.null)
    (hB : Path m (m.objs b).head_next_node csB NodePtr.null)
    (hdisj : ∀ ca ∈ csA, ∀ cb ∈ csB, ca.1 ≠ cb.1) (hne : csA ≠ [] ∨ csB ≠ []) :
    (m.objs a).head_next_node ≠ (m.objs b).head_next_node := by
  intro heq
  cases csA with
  | nil =>
    have ha0 : (m.objs a).head_next_node = NodePtr.null := hA
    cases csB with
    | nil => rcases hne with h | h <;> exact h rfl
    | cons cb csB =>
      rw [← heq, ha0] at hB
      cases hB.1
  | cons ca csA =>
    cases csB with
    | nil =>
      have hb0 : (m.objs b).head_next_node = NodePtr.null := hB
      rw [heq, hb0] at hA
      cases hA.1
    | cons cb csB =>
      have h1 := hA.1
      rw [heq, hB.1] at h1
      injection h1 with h1
      exact hdisj ca (List.mem_cons_self _ _) cb (List.mem_cons_self _ _) h1.symm

/-! ## The claims -/

/-- C1: for every finite sequence `S`, the list constructed from `S` by the
initializer-list constructor (through `iterator_fill`) traverses from `begin()` to
`end()` as exactly `S`, and `GetSize()` is the length of `S`; the construction returns
as soon as the loop bound exceeds the length and `S.length` allocations succeed. -/
theorem initializer_list_ctor_traverses (m : Mem α) (this : Nat) (S : List α) (fuel : Nat)
    (hfuel : S.length < fuel) (hbud : S.length ≤ m.budget) (hlen : S.length < SIZE_MOD) :
    ∃ m1, SingleLinkedList_initializer_list fuel m this S = Except.ok m1 ∧
      toList (S.length + 1) m1 this = Except.ok S ∧ GetSize m1 this = S.length := by
  obtain ⟨f, rfl⟩ : ∃ f, fuel = f + 1 := ⟨fuel - 1, by omega⟩
  have h0 : ((SingleLinkedList_default m this).objs this).head_next_node = NodePtr.null := by
    simp [SingleLinkedList_default]
  have hs0 : ((SingleLinkedList_default m this).objs this).size_ = 0 := by
    simp [SingleLinkedList_default]
  have hclear := Clear_of_empty f (SingleLinkedList_default m this) this h0
  by_cases hS : S.length = 0
  · have hnil : S = [] := List.length_eq_zero.mp hS
    subst hnil
    refine ⟨SingleLinkedList_default m this, ?_, ?_, ?_⟩
    · simp [SingleLinkedList_initializer_list, iterator_fill, hclear, ok_bind, pure_eq_ok]
    · simp [toList, begin_, h0, traverse, end_]
    · simp [GetSize, hs0]
  · obtain ⟨m1, cs, p0, hloop, hget, hpath, hmap, _, _, _, hsz, _, _⟩ :=
      fill_loop_il S this S.length (f + 1) (SingleLinkedList_default m this)
        (NodePtr.head this) 0 (by omega) hfuel (by simpa [SingleLinkedList_default] using hbud)
        (by simp [Mem.get_next, h0])
    refine ⟨m1, ?_, ?_, ?_⟩
    · have hne : ¬ (0 = S.length) := fun h => hS h.symm
      simp only [SingleLinkedList_initializer_list, iterator_fill, hclear, ok_bind, hne,
        if_false]
      exact hloop
    · have hp0 : (m1.objs this).head_next_node = p0 := by
        simpa [Mem.get_next] using hget
      have htr := traverse_of_path (S.length + 1) hpath
        (by rw [← List.length_map cs Prod.snd, hmap]; simp)
      rw [hmap] at htr
      simpa [toList, begin_, hp0] using htr
    · rw [GetSize, hsz, hs0, iterate_size_inc _ _ (by omega)]
      omega

/-- C1, at a concrete input: the list constructed from `{1, 2, 3}` in the initial
memory. -/
theorem initializer_list_ctor_traverses_witness :
    ([1, 2, 3].length < 4 ∧ [1, 2, 3].length ≤ (Mem.init Nat 5).budget ∧
        [1, 2, 3].length < SIZE_MOD) ∧
      ∃ m1, SingleLinkedList_initializer_list 4 (Mem.init Nat 5) 0 [1, 2, 3] = Except.ok m1 ∧
        toList 4 m1 0 = Except.ok [1, 2, 3] ∧ GetSize m1 0 = 3 :=
  ⟨⟨by decide, by decide, by decide⟩,
    initializer_list_ctor_traverses (Mem.init Nat 5) 0 [1, 2, 3] 4 (by decide) (by decide)
      (by decide)⟩

/-- C2 as stated fails on the code: the list constructed from `{1}`, after `PopFront()`, is
empty with `GetSize() == 2 ^ 64 - 1`; `PushFront(7)` then makes the traversal `{7}` but
`GetSize() == 0`, which is not one more than before the call. -/
theorem PushFront_size_wraps :
    ∃ m1 m2 m3,
      SingleLinkedList_initializer_list 2 (Mem.init Nat 2) 0 [1] = Except.ok m1 ∧
      PopFront m1 0 = Except.ok m2 ∧
      toList 2 m2 0 = Except.ok [] ∧ GetSize m2 0 = 2 ^ 64 - 1 ∧
      PushFront m2 0 7 = Except.ok m3 ∧
      toList 2 m3 0 = Except.ok [7] ∧ GetSize m3 0 = 0 ∧
      GetSize m3 0 ≠ GetSize m2 0 + 1 :=
  ⟨_, _, _, rfl, rfl, rfl, rfl, rfl, rfl, rfl, by decide⟩

/-- C2, amended: for every list with element sequence `S`, whatever its `size_`, and every
value `x`, `PushFront(x)` (when the allocation succeeds) makes the traversal `x` followed
by `S`, and `GetSize()` is the value before the call plus one modulo `2 ^ 64`: exactly one
more than before unless it was `2 ^ 64 - 1`. -/
theorem PushFront_prepends (m : Mem α) (this : Nat) (x : α) (S : List α) (fuel : Nat)
    (hS : toList fuel m this = Except.ok S) (hb : 0 < m.budget) :
    ∃ m1, PushFront m this x = Except.ok m1 ∧
      toList (fuel + 1) m1 this = Except.ok (x :: S) ∧
      (GetSize m1 this = (GetSize m this + 1) % SIZE_MOD ∧
        (GetSize m this + 1 < SIZE_MOD → GetSize m1 this = GetSize m this + 1)) := by
  obtain ⟨cs, hpath, hmap, hlen⟩ := path_of_traverse fuel hS
  refine ⟨_, PushFront_ok m this x (by omega), ?_, ?_⟩
  · have hframe : ∀ c ∈ cs,
        ({ objs := fun i =>
              if i = this then
                { head_next_node := NodePtr.heap m.nodes.length,
                  size_ := size_inc (m.objs this).size_ }
              else m.objs i
           nodes := m.nodes ++ [some { value := x, next_node := (m.objs this).head_next_node }]
           budget := m.budget - 1 } : Mem α).cell c.1 = m.cell c.1 := by
      intro c hc
      have hlt := Path.addr_lt hpath c hc
      rw [cell_of_append rfl]
      simp [Nat.ne_of_lt hlt]
    have hpath1 := Path.frame hpath hframe
    have hnew : Path _ (NodePtr.heap m.nodes.length) ((m.nodes.length, x) :: cs) NodePtr.null :=
      ⟨rfl, (m.objs this).head_next_node, by rw [cell_of_append rfl]; simp, hpath1⟩
    have htr := traverse_of_path (fuel + 1) hnew
      (by rw [List.length_cons, ← List.length_map cs Prod.snd, hmap]; omega)
    simpa [toList, begin_, hmap] using htr
  · simp only [GetSize, if_true]
    exact ⟨rfl, fun hsz => size_inc_eq hsz⟩

/-- C2, amended, at a concrete input: `PushFront(0)` on the list `{1, 2, 3}`. -/
theorem PushFront_prepends_witness :
    (toList 4 mem_sample 0 = Except.ok [1, 2, 3] ∧ 0 < mem_sample.budget) ∧
      ∃ m1, PushFront mem_sample 0 0 = Except.ok m1 ∧
        toList 5 m1 0 = Except.ok [0, 1, 2, 3] ∧
        (GetSize m1 0 = 4 ∧ (GetSize mem_sample 0 + 1 < SIZE_MOD → GetSize m1 0 = 4)) :=
  ⟨⟨rfl, by decide⟩, PushFront_prepends mem_sample 0 0 [1, 2, 3] 4 rfl (by decide)⟩

/-- C3 fails on the code: on the list constructed from `{1, 2, 3}`, `PopFront()` and
`EraseAfter(before_begin())` both leave the elements `{2, 3}`, but `PopFront()` leaves
`GetSize() == 1` where `EraseAfter(before_begin())` leaves `GetSize() == 2`. -/
theorem PopFront_decrements_twice :
    ∃ m0 m1 m2 it,
      SingleLinkedList_initializer_list 4 (Mem.init Nat 3) 0 [1, 2, 3] = Except.ok m0 ∧
      PopFront m0 0 = Except.ok m1 ∧
      EraseAfter m0 0 (before_begin 0) = Except.ok (m2, it) ∧
      toList 4 m1 0 = Except.ok [2, 3] ∧ toList 4 m2 0 = Except.ok [2, 3] ∧
      GetSize m0 0 = 3 ∧ GetSize m1 0 = 1 ∧ GetSize m2 0 = 2 :=
  ⟨_, _, _, _, rfl, rfl, rfl, rfl, rfl, rfl, rfl, rfl⟩

/-- C4 as stated fails on the code: the list constructed from `{1, 2}`, after `PopFront()`,
holds `{2}` with `GetSize() == 0`; `before_begin()` has a successor, and
`EraseAfter(before_begin())` removes it but leaves `GetSize() == 2 ^ 64 - 1`, which is not
one less than before the call. -/
theorem EraseAfter_size_wraps :
    ∃ m1 m2 m3 it,
      SingleLinkedList_initializer_list 3 (Mem.init Nat 2) 0 [1, 2] = Except.ok m1 ∧
      PopFront m1 0 = Except.ok m2 ∧
      toList 3 m2 0 = Except.ok [2] ∧ GetSize m2 0 = 0 ∧
      EraseAfter m2 0 (before_begin 0) = Except.ok (m3, it) ∧
      toList 3 m3 0 = Except.ok [] ∧ GetSize m3 0 = 2 ^ 64 - 1 ∧
      GetSize m3 0 + 1 ≠ GetSize m2 0 :=
  ⟨_, _, _, _, rfl, rfl, rfl, rfl, rfl, rfl, rfl, by decide⟩

/-- C4, amended: for every list with element sequence `S`, whatever its `size_`, and every
position `pos` that is the sentinel (`k = 0`) or the `k`-th element and has a successor,
`EraseAfter(pos)` removes exactly the element immediately after `pos` and keeps the
others in order, and returns the cursor now following `pos`: the values from it to
`end()` are those that followed the removed element, and it is `end()` when there was
none. `GetSize()` is the value before the call minus one modulo `2 ^ 64`: exactly one
less than before unless it was `0`. -/
theorem EraseAfter_removes (m : Mem α) (this : Nat) (pos : BasicIterator) (S : List α)
    (fuel k : Nat)
    (hS : toList fuel m this = Except.ok S) (hk : k < S.length)
    (hpos : advance m k (before_begin this) = Except.ok pos) :
    ∃ m1 it, EraseAfter m this pos = Except.ok (m1, it) ∧
      toList fuel m1 this = Except.ok (S.take k ++ S.drop (k + 1)) ∧
      (GetSize m1 this = (GetSize m this + (SIZE_MOD - 1)) % SIZE_MOD ∧
        (0 < GetSize m this → GetSize m this < SIZE_MOD →
          GetSize m1 this = GetSize m this - 1)) ∧
      pos.incr m1 = Except.ok it ∧
      traverse fuel m1 it end_ = Except.ok (S.drop (k + 1)) ∧
      (k + 1 = S.length → it = end_) := by
  obtain ⟨cs, hpath, hmap, hlen⟩ := path_of_traverse fuel hS
  have hkc : k < cs.length := by rw [← List.length_map cs Prod.snd, hmap]; exact hk
  have hcsl : cs.length < fuel := by rw [← List.length_map cs Prod.snd, hmap]; exact hlen
  rcases pos_of_advance hpath hpos (Nat.le_of_lt hkc) with ⟨hk0, hp⟩ | ⟨pre, c, post, hcs, hpl, hp⟩
  · subst hk0
    subst hp
    cases cs with
    | nil => simp at hkc
    | cons d post =>
      have hnm := Path.head_not_mem hpath
      obtain ⟨hp0, q, hd, hpost⟩ := hpath
      obtain ⟨m3, hers, hget, _, hfr, _, _, hsize, _, _, _⟩ :=
        EraseAfter_spec m this { node_ := NodePtr.head this } d.1 _
          (by simp [Mem.get_next, hp0]) hd (by simp)
      have hhead : (m3.objs this).head_next_node = q := by
        simpa [Mem.get_next] using hget
      have hpost3 : Path m3 q post NodePtr.null := by
        apply Path.frame hpost
        intro e he
        apply hfr e.1 _ (by simp)
        intro h
        exact hnm (List.mem_map.mpr ⟨e, he, h⟩)
      have htr := traverse_of_path fuel hpost3 (by simp at hcsl; omega)
      have hval : post.map Prod.snd = S.drop 1 := by
        rw [← hmap]
        simp
      rw [hval] at htr
      refine ⟨m3, _, hers, ?_, ?_, ?_, htr, ?_⟩
      · simpa [toList, begin_, hhead] using htr
      · rw [GetSize, hsize]
        exact ⟨rfl, fun hsz0 hsz => size_dec_eq hsz0 hsz⟩
      · simp only [BasicIterator.incr, hget, ok_bind, pure_eq_ok]
      · intro hone
        have hnil : post = [] := by
          have hl := congrArg List.length hmap
          simp at hl
          exact List.length_eq_zero.mp (by omega)
        subst hnil
        have hq : q = NodePtr.null := hpost
        rw [hq]
        rfl
  · subst hp
    subst hcs
    cases post with
    | nil =>
      simp at hkc
      omega
    | cons d post =>
      have hnd := Path.nodup hpath
      rw [List.map_append, List.map_cons, List.nodup_middle, List.nodup_cons] at hnd
      obtain ⟨hcnot, hnd2⟩ := hnd
      rw [List.map_cons, List.nodup_middle, List.nodup_cons] at hnd2
      obtain ⟨hdnot, _⟩ := hnd2
      simp only [List.map_cons, List.mem_append, List.mem_cons, not_or] at hcnot hdnot
      obtain ⟨hc_pre, hcd, hc_post⟩ := hcnot
      obtain ⟨hd_pre, hd_post⟩ := hdnot
      obtain ⟨q0, hpre, hc0, nx, hc, hnx, q, hd, hpost⟩ := Path.split _ hpath
      subst hnx
      obtain ⟨m3, hers, hget, _, hfr, hfrp, hhd, hsize, _, _, _⟩ :=
        EraseAfter_spec m this { node_ := NodePtr.heap c.1 } d.1 _
          (get_next_heap hc) hd (by simpa using hcd)
      have hhead : (m3.objs this).head_next_node = (m.objs this).head_next_node :=
        hhd this (by simp)
      have hcell_c := hfrp c.1 _ rfl hc
      have hpre3 : Path m3 (m.objs this).head_next_node pre q0 := by
        apply Path.frame hpre
        intro e he
        apply hfr e.1
        · intro h
          exact hd_pre (List.mem_map.mpr ⟨e, he, h⟩)
        · intro h
          have h2 : e.1 = c.1 := by simpa using h
          exact hc_pre (List.mem_map.mpr ⟨e, he, h2⟩)
      have hpost3 : Path m3 q post NodePtr.null := by
        apply Path.frame hpost
        intro e he
        apply hfr e.1
        · intro h
          exact hd_post (List.mem_map.mpr ⟨e, he, h⟩)
        · intro h
          have h2 : e.1 = c.1 := by simpa using h
          exact hc_post (List.mem_map.mpr ⟨e, he, h2⟩)
      have hmid : Path m3 q0 (c :: post) NodePtr.null := ⟨hc0, _, hcell_c, hpost3⟩
      have hall := Path.append hpre3 hmid
      have htr := traverse_of_path fuel hall (by simp at hcsl ⊢; omega)
      have htr2 := traverse_of_path fuel hpost3 (by simp at hcsl; omega)
      obtain ⟨h1, _⟩ := take_drop_succ_append (pre.map Prod.snd) c.2
        (d.2 :: post.map Prod.snd) pre.length (by simp)
      obtain ⟨_, h2⟩ := take_drop_succ_append (pre.map Prod.snd ++ [c.2]) d.2
        (post.map Prod.snd) (pre.length + 1) (by simp)
      have hSeq : S = pre.map Prod.snd ++ c.2 :: d.2 :: post.map Prod.snd := by
        rw [← hmap]
        simp
      have hdrop : S.drop (k + 1) = post.map Prod.snd := by
        have hre : pre.map Prod.snd ++ c.2 :: d.2 :: post.map Prod.snd
            = pre.map Prod.snd ++ [c.2] ++ d.2 :: post.map Prod.snd := by simp
        rw [hSeq, ← hpl, hre, h2]
      have htake : S.take k = pre.map Prod.snd ++ [c.2] := by
        rw [hSeq, ← hpl, h1]
      refine ⟨m3, _, hers, ?_, ?_, ?_, ?_, ?_⟩
      · rw [toList, begin_, hhead, htr, hdrop, htake]
        simp
      · rw [GetSize, hsize]
        exact ⟨rfl, fun hsz0 hsz => size_dec_eq hsz0 hsz⟩
      · simp only [BasicIterator.incr, hget, ok_bind, pure_eq_ok]
      · rw [hdrop]
        exact htr2
      · intro hone
        have hnil : post = [] := by
          have hl := congrArg List.length hSeq
          simp at hl
          exact List.length_eq_zero.mp (by omega)
        subst hnil
        have hq : q = NodePtr.null := hpost
        rw [hq]
        rfl

/-- C4, amended, at the concrete input of the specification: `EraseAfter(begin())` on
`{0, 1, 2, 3}` gives `{0, 2, 3}` with size 3. -/
theorem EraseAfter_removes_witness :
    (toList 5 mem_0123 0 = Except.ok [0, 1, 2, 3] ∧ 1 < [0, 1, 2, 3].length ∧
        advance mem_0123 1 (before_begin 0) = Except.ok (begin_ mem_0123 0)) ∧
      ∃ m1 it, EraseAfter mem_0123 0 (begin_ mem_0123 0) = Except.ok (m1, it) ∧
        toList 5 m1 0 = Except.ok [0, 2, 3] ∧
        (GetSize m1 0 = 3 ∧
          (0 < GetSize mem_0123 0 → GetSize mem_0123 0 < SIZE_MOD → GetSize m1 0 = 3)) ∧
        (begin_ mem_0123 0).incr m1 = Except.ok it ∧
        traverse 5 m1 it end_ = Except.ok [2, 3] ∧
        (1 + 1 = [0, 1, 2, 3].length → it = end_) :=
  ⟨⟨rfl, by decide, rfl⟩,
    EraseAfter_removes mem_0123 0 (begin_ mem_0123 0) [0, 1, 2, 3] 5 1 rfl (by decide) rfl⟩

/-- C5 as stated fails on the code: the list constructed from `{1}`, after `PopFront()`, is
empty with `GetSize() == 2 ^ 64 - 1`; `InsertAfter(before_begin(), 7)` then makes the
traversal `{7}` but `GetSize() == 0`, which is not one more than before the call. -/
theorem InsertAfter_size_wraps :
    ∃ m1 m2 m3 it,
      SingleLinkedList_initializer_list 2 (Mem.init Nat 2) 0 [1] = Except.ok m1 ∧
      PopFront m1 0 = Except.ok m2 ∧
      toList 2 m2 0 = Except.ok [] ∧ GetSize m2 0 = 2 ^ 64 - 1 ∧
      InsertAfter m2 0 (before_begin 0) 7 = Except.ok (m3, it) ∧
      toList 2 m3 0 = Except.ok [7] ∧ GetSize m3 0 = 0 ∧
      GetSize m3 0 ≠ GetSize m2 0 + 1 :=
  ⟨_, _, _, _, rfl, rfl, rfl, rfl, rfl, rfl, rfl, by decide⟩

/-- C5, amended: for every list with element sequence `S`, whatever its `size_`, every
position `pos` that is the sentinel (`k = 0`) or the `k`-th element, and every value `x`,
`InsertAfter(pos, x)` (when the allocation succeeds) yields `S` with `x` inserted
immediately after `pos` and the other elements unchanged and in order, and returns a
cursor that dereferences to `x`. `GetSize()` is the value before the call plus one modulo
`2 ^ 64`: exactly one more than before unless it was `2 ^ 64 - 1`. -/
theorem InsertAfter_inserts (m : Mem α) (this : Nat) (pos : BasicIterator) (x : α)
    (S : List α) (fuel k : Nat)
    (hS : toList fuel m this = Except.ok S) (hk : k ≤ S.length)
    (hpos : advance m k (before_begin this) = Except.ok pos) (hb : 0 < m.budget) :
    ∃ m1 it, InsertAfter m this pos x = Except.ok (m1, it) ∧
      toList (fuel + 1) m1 this = Except.ok (S.take k ++ x :: S.drop k) ∧
      (GetSize m1 this = (GetSize m this + 1) % SIZE_MOD ∧
        (GetSize m this + 1 < SIZE_MOD → GetSize m1 this = GetSize m this + 1)) ∧
      it.deref m1 = Except.ok x := by
  obtain ⟨cs, hpath, hmap, hlen⟩ := path_of_traverse fuel hS
  have hkc : k ≤ cs.length := by rw [← List.length_map cs Prod.snd, hmap]; exact hk
  have hcsl : cs.length < fuel := by rw [← List.length_map cs Prod.snd, hmap]; exact hlen
  have hlt := Path.addr_lt hpath
  rcases pos_of_advance hpath hpos hkc with ⟨hk0, hp⟩ | ⟨pre, c, post, hcs, hpl, hp⟩
  · subst hk0
    subst hp
    obtain ⟨m3, hins, hget, hcellN, hfr, _, _, hsize, _, _⟩ :=
      InsertAfter_spec m this { node_ := NodePtr.head this } x (m.objs this).head_next_node
        rfl (by omega)
    have hhead : (m3.objs this).head_next_node = NodePtr.heap m.nodes.length := by
      simpa [Mem.get_next] using hget
    have hpath1 : Path m3 (m.objs this).head_next_node cs NodePtr.null :=
      Path.frame hpath (fun c hc => hfr c.1 (Nat.ne_of_lt (hlt c hc)) (by simp))
    have hnew : Path m3 (NodePtr.heap m.nodes.length) ((m.nodes.length, x) :: cs)
        NodePtr.null := ⟨rfl, _, hcellN, hpath1⟩
    have htr := traverse_of_path (fuel + 1) hnew (by simp; omega)
    refine ⟨m3, _, hins, ?_, ?_, ?_⟩
    · simpa [toList, begin_, hhead, hmap] using htr
    · rw [GetSize, hsize]
      exact ⟨rfl, fun hsz => size_inc_eq hsz⟩
    · simpa using deref_heap hcellN
  · subst hp
    subst hcs
    obtain ⟨q, hpre, hc0, nx, hc, hpost⟩ := Path.split _ hpath
    have hnd := Path.nodup hpath
    rw [List.map_append, List.map_cons, List.nodup_middle, List.nodup_cons] at hnd
    have hnotin : c.1 ∉ pre.map Prod.fst ∧ c.1 ∉ post.map Prod.fst := by
      have := hnd.1
      simp only [List.mem_append, not_or] at this
      exact this
    obtain ⟨m3, hins, hget, hcellN, hfr, hfrp, hhd, hsize, _, _⟩ :=
      InsertAfter_spec m this { node_ := NodePtr.heap c.1 } x nx (get_next_heap hc) (by omega)
    have hhead : (m3.objs this).head_next_node = (m.objs this).head_next_node :=
      hhd this (by simp)
    have hcell_c := hfrp c.1 _ rfl hc
    have hkeep : ∀ d ∈ pre ++ c :: post, d.1 ≠ c.1 → m3.cell d.1 = m.cell d.1 := by
      intro d hd hdc
      exact hfr d.1 (Nat.ne_of_lt (hlt d hd)) (by simpa using hdc)
    have hpre3 : Path m3 (m.objs this).head_next_node pre q := by
      apply Path.frame hpre
      intro d hd
      apply hkeep d (List.mem_append_left _ hd)
      intro h
      exact hnotin.1 (List.mem_map.mpr ⟨d, hd, h⟩)
    have hpost3 : Path m3 nx post NodePtr.null := by
      apply Path.frame hpost
      intro d hd
      apply hkeep d (List.mem_append_right _ (List.mem_cons_of_mem _ hd))
      intro h
      exact hnotin.2 (List.mem_map.mpr ⟨d, hd, h⟩)
    have hmid : Path m3 q (c :: (m.nodes.length, x) :: post) NodePtr.null :=
      ⟨hc0, _, hcell_c, rfl, _, hcellN, hpost3⟩
    have hall := Path.append hpre3 hmid
    have htr := traverse_of_path (fuel + 1) hall (by simp at hcsl ⊢; omega)
    refine ⟨m3, _, hins, ?_, ?_, ?_⟩
    · rw [toList, begin_, hhead, htr, ← hmap, ← hpl]
      obtain ⟨h1, h2⟩ := take_drop_succ_append (pre.map Prod.snd) c.2 (post.map Prod.snd)
        pre.length (by simp)
      simp only [List.map_append, List.map_cons]
      rw [h1, h2]
      simp
    · rw [GetSize, hsize]
      exact ⟨rfl, fun hsz => size_inc_eq hsz⟩
    · simpa using deref_heap hcellN

/-- C5, amended, at the concrete input of the specification: `InsertAfter(begin(), 9)` on
`{0, 2, 3}` gives `{0, 9, 2, 3}` with size 4. -/
theorem InsertAfter_inserts_witness :
    (toList 4 mem_023 0 = Except.ok [0, 2, 3] ∧ 1 ≤ [0, 2, 3].length ∧
        advance mem_023 1 (before_begin 0) = Except.ok (begin_ mem_023 0) ∧
        0 < mem_023.budget) ∧
      ∃ m1 it, InsertAfter mem_023 0 (begin_ mem_023 0) 9 = Except.ok (m1, it) ∧
        toList 5 m1 0 = Except.ok [0, 9, 2, 3] ∧
        (GetSize m1 0 = 4 ∧ (GetSize mem_023 0 + 1 < SIZE_MOD → GetSize m1 0 = 4)) ∧
        it.deref m1 = Except.ok 9 :=
  ⟨⟨rfl, by decide, rfl, by decide⟩,
    InsertAfter_inserts mem_023 0 (begin_ mem_023 0) 9 [0, 2, 3] 4 1 rfl (by decide) rfl
      (by decide)⟩

/-- C6: for every list and every value `x`, `InsertAfter(before_begin(), x)` and
`PushFront(x)` have the same outcome: both throw when the allocation fails, and
otherwise both return leaving the same memory, hence the same element sequence and the
same `GetSize()`; the cursor returned by `InsertAfter` is then `begin()`. -/
theorem InsertAfter_before_begin_eq_PushFront (m : Mem α) (this : Nat) (x : α) :
    (InsertAfter m this (before_begin this) x).map Prod.fst = PushFront m this x ∧
      (m.budget ≠ 0 → ∃ m1, PushFront m this x = Except.ok m1 ∧
        InsertAfter m this (before_begin this) x = Except.ok (m1, begin_ m1 this)) := by
  by_cases hb : m.budget = 0
  · refine ⟨?_, fun h => absurd hb h⟩
    simp [InsertAfter, PushFront, before_begin, Mem.get_next, Mem.new_Node, hb, ok_bind,
      error_bind, Except.map]
  · have hins : InsertAfter m this (before_begin this) x = Except.ok
        ({ objs := fun i =>
              if i = this then
                { head_next_node := NodePtr.heap m.nodes.length,
                  size_ := size_inc (m.objs this).size_ }
              else m.objs i
           nodes := m.nodes ++
             [some { value := x, next_node := (m.objs this).head_next_node }]
           budget := m.budget - 1 }, { node_ := NodePtr.heap m.nodes.length }) := by
      simp only [InsertAfter, before_begin, Mem.get_next, ok_bind, Mem.new_Node, hb, if_false,
        Mem.set_next, Mem.set_size, pure_eq_ok, if_true]
      congr 3
      funext i
      by_cases hi : i = this <;> simp [hi]
    refine ⟨?_, fun _ => ⟨_, PushFront_ok m this x hb, ?_⟩⟩
    · rw [hins, PushFront_ok m this x hb]
      rfl
    · rw [hins]
      simp [begin_]

/-- C6, at a concrete input: `x = 0` on the list `{1, 2, 3}`. -/
theorem InsertAfter_before_begin_eq_PushFront_witness :
    mem_sample.budget ≠ 0 ∧ ∃ m1, PushFront mem_sample 0 0 = Except.ok m1 ∧
      InsertAfter mem_sample 0 (before_begin 0) 0 = Except.ok (m1, begin_ m1 0) :=
  ⟨by decide, (InsertAfter_before_begin_eq_PushFront mem_sample 0 0).2 (by decide)⟩

/-- C7 fails on the code: the list constructed from `{1, 2}`, after one `PopFront()` (which
leaves the element `2` and `GetSize() == 0`), is cleared by `Clear()` to
`begin() == end()` but `GetSize() == 2 ^ 64 - 1`. -/
theorem Clear_after_PopFront_size :
    ∃ m1 m2 m3,
      SingleLinkedList_initializer_list 3 (Mem.init Nat 2) 0 [1, 2] = Except.ok m1 ∧
      PopFront m1 0 = Except.ok m2 ∧ Clear 3 m2 0 = Except.ok m3 ∧
      toList 3 m2 0 = Except.ok [2] ∧ GetSize m2 0 = 0 ∧
      begin_ m3 0 = end_ ∧ GetSize m3 0 = 2 ^ 64 - 1 :=
  ⟨_, _, _, rfl, rfl, rfl, rfl, rfl, rfl, rfl⟩

/-- C8 fails on the code: with `A` constructed from `{1, 2}` and `B` from `{1, 2, 3}`,
`A == B` returns `true` although the lengths differ, and `B == A` dereferences the end
cursor of `A`. -/
theorem operator_eq_ignores_length :
    ∃ m1 m2,
      SingleLinkedList_initializer_list 4 (Mem.init Nat 5) 0 [1, 2] = Except.ok m1 ∧
      SingleLinkedList_initializer_list 4 m1 1 [1, 2, 3] = Except.ok m2 ∧
      toList 4 m2 0 = Except.ok [1, 2] ∧ toList 4 m2 1 = Except.ok [1, 2, 3] ∧
      operator_eq 4 m2 0 1 = Except.ok true ∧
      operator_eq 4 m2 1 0 = Except.error Err.undefined :=
  ⟨_, _, rfl, rfl, rfl, rfl, rfl, rfl⟩

/-- C9 fails on the code: with `A` and `B` both constructed from `{1, 2, 3}`, `A == B` and
`A > B` both return `true` (and `A < B` returns `false`). -/
theorem operator_gt_holds_on_equal_lists :
    ∃ m1 m2,
      SingleLinkedList_initializer_list 4 (Mem.init Nat 6) 0 [1, 2, 3] = Except.ok m1 ∧
      SingleLinkedList_initializer_list 4 m1 1 [1, 2, 3] = Except.ok m2 ∧
      toList 4 m2 0 = Except.ok [1, 2, 3] ∧ toList 4 m2 1 = Except.ok [1, 2, 3] ∧
      operator_lt 4 m2 0 1 = Except.ok false ∧
      operator_eq 4 m2 0 1 = Except.ok true ∧
      operator_gt 4 m2 0 1 = Except.ok true :=
  ⟨_, _, rfl, rfl, rfl, rfl, rfl, rfl, rfl⟩

/-- C10: for all lists `A` and `B` with element sequences `SA` and `SB`, `A < B` returns,
and returns `true` if and only if `SA` is lexicographically less than `SB` (the order
`List.Lex`); in particular it returns `true` when `SA` is a proper initial segment of
`SB` and `false` when `SA` is `SB`. -/
theorem operator_lt_iff_lex [LinearOrder α] (m : Mem α) (a b : Nat) (SA SB : List α)
    (fuel : Nat) (hA : toList fuel m a = Except.ok SA) (hB : toList fuel m b = Except.ok SB) :
    ∃ r, operator_lt fuel m a b = Except.ok r ∧
      (r = true ↔ List.Lex (fun x y => x < y) SA SB) ∧
      ((∃ x T, SB = SA ++ x :: T) → r = true) ∧
      (SA = SB → r = false) := by
  obtain ⟨csA, hpA, hmA, hlA⟩ := path_of_traverse fuel hA
  obtain ⟨csB, hpB, hmB, _⟩ := path_of_traverse fuel hB
  obtain ⟨r, hr, hiff⟩ := lexicographical_compare_spec fuel csA csB _ _ hpA hpB
    (by rw [← List.length_map csA Prod.snd, hmA]; exact hlA)
  rw [hmA, hmB] at hiff
  refine ⟨r, hr, hiff, ?_, ?_⟩
  · rintro ⟨x, T, hSB⟩
    rw [hiff, hSB]
    exact lex_initial_segment x T SA
  · intro hEq
    cases hrt : r with
    | false => rfl
    | true =>
      rw [hrt] at hiff
      rw [hEq] at hiff
      exact absurd (hiff.mp rfl) (lex_not_self SB)

/-- C10, at a concrete input: `{1, 2} < {1, 2, 3}`. -/
theorem operator_lt_iff_lex_witness :
    (toList 4 mem_sample 1 = Except.ok [1, 2] ∧ toList 4 mem_sample 0 = Except.ok [1, 2, 3]) ∧
      ∃ r, operator_lt 4 mem_sample 1 0 = Except.ok r ∧
        (r = true ↔ List.Lex (fun x y => x < y) [1, 2] [1, 2, 3]) ∧
        ((∃ x T, [1, 2, 3] = [1, 2] ++ x :: T) → r = true) ∧
        ([1, 2] = [1, 2, 3] → r = false) :=
  ⟨⟨rfl, rfl⟩, operator_lt_iff_lex mem_sample 1 0 [1, 2] [1, 2, 3] 4 rfl rfl⟩

/-- C11 fails on the code: with `A` and `B` both constructed from `{1, 2, 3}`, `A > A` and
`A > B` return `true` although `A < A` and `B < A` return `false`. -/
theorem operator_gt_on_equal_sequences :
    ∃ m1 m2,
      SingleLinkedList_initializer_list 4 (Mem.init Nat 6) 0 [1, 2, 3] = Except.ok m1 ∧
      SingleLinkedList_initializer_list 4 m1 1 [1, 2, 3] = Except.ok m2 ∧
      toList 4 m2 0 = Except.ok [1, 2, 3] ∧ toList 4 m2 1 = Except.ok [1, 2, 3] ∧
      operator_gt 4 m2 0 0 = Except.ok true ∧ operator_lt 4 m2 0 0 = Except.ok false ∧
      operator_gt 4 m2 0 1 = Except.ok true ∧ operator_lt 4 m2 1 0 = Except.ok false :=
  ⟨_, _, rfl, rfl, rfl, rfl, rfl, rfl, rfl, rfl⟩

/-- C12 fails on the code: with `A` constructed from `{1}` and `B` from `{1, 2}`, `A >= B`
returns `true` (its `==` part returns `true`) although `{1}` is lexicographically less
than `{1, 2}`; and `B <= A` dereferences the end cursor of `A`. -/
theorem operator_ge_on_initial_segment :
    ∃ m1 m2,
      SingleLinkedList_initializer_list 4 (Mem.init Nat 6) 0 [1] = Except.ok m1 ∧
      SingleLinkedList_initializer_list 4 m1 1 [1, 2] = Except.ok m2 ∧
      toList 4 m2 0 = Except.ok [1] ∧ toList 4 m2 1 = Except.ok [1, 2] ∧
      operator_lt 4 m2 0 1 = Except.ok true ∧
      operator_eq 4 m2 0 1 = Except.ok true ∧
      operator_ge 4 m2 0 1 = Except.ok true ∧
      operator_le 4 m2 1 0 = Except.error Err.undefined :=
  ⟨_, _, rfl, rfl, rfl, rfl, rfl, rfl, rfl, rfl⟩

/-- C13 as stated fails on the code: the list `B` constructed from `{1, 2}`, after
`PopFront()`, holds `{2}` with `GetSize() == 0`; the list copy-constructed from `B`, and the
empty list `A` after `A = B`, hold `{2}` with `GetSize() == 1`, which is not the
`GetSize()` of `B`. -/
theorem copy_size_counts_nodes :
    ∃ m1 m2 m3 m4,
      SingleLinkedList_initializer_list 3 (Mem.init Nat 4) 0 [1, 2] = Except.ok m1 ∧
      PopFront m1 0 = Except.ok m2 ∧
      toList 3 m2 0 = Except.ok [2] ∧ GetSize m2 0 = 0 ∧
      SingleLinkedList_copy 3 m2 1 0 = Except.ok m3 ∧
      toList 3 m3 1 = Except.ok [2] ∧ GetSize m3 1 = 1 ∧ GetSize m3 0 = 0 ∧
      GetSize m3 1 ≠ GetSize m3 0 ∧
      operator_assign 3 m2 2 0 3 4 = Except.ok m4 ∧
      toList 3 m4 2 = Except.ok [2] ∧ GetSize m4 2 = 1 ∧ GetSize m4 0 = 0 ∧
      GetSize m4 2 ≠ GetSize m4 0 :=
  ⟨_, _, _, _, rfl, rfl, rfl, rfl, rfl, rfl, rfl, rfl, by decide, rfl, rfl, rfl, rfl,
    by decide⟩

/-- C13, amended: for all distinct lists `A` and `B` on disjoint chains, whatever their
`size_` (either may be empty): copy-constructing a list `C` from `B`, and copy-assigning
`A = B`, each return a list with the element sequence of `B` in the same order, while the
element sequence and `GetSize()` of `B` are unchanged. The `GetSize()` of the copy is the
number of elements of `B`, except that `A = B` between two empty lists does nothing, so
that `A` keeps its own `GetSize()`. A later `PushFront`, `InsertAfter` or `EraseAfter`
on the copy leaves the sequence of `B` unchanged. -/
theorem copy_is_deep (m : Mem α) (a b c x x1 : Nat) (csA csB : List (Nat × α)) (fuel : Nat)
    (hA : Path m (m.objs a).head_next_node csA NodePtr.null)
    (hB : Path m (m.objs b).head_next_node csB NodePtr.null)
    (hdisj : ∀ ca ∈ csA, ∀ cb ∈ csB, ca.1 ≠ cb.1)
    (hlenB : csB.length < SIZE_MOD)
    (hfA : csA.length < fuel) (hfB : csB.length < fuel) (hbud : csB.length ≤ m.budget)
    (hab : a ≠ b) (hcb : c ≠ b)
    (hxa : x ≠ a) (hxb : x ≠ b) (hx1a : x1 ≠ a) (hx1b : x1 ≠ b) (hx1x : x1 ≠ x) :
    (∃ m1, SingleLinkedList_copy fuel m c b = Except.ok m1 ∧
        toList fuel m1 c = Except.ok (csB.map Prod.snd) ∧ GetSize m1 c = csB.length ∧
        toList fuel m1 b = Except.ok (csB.map Prod.snd) ∧ GetSize m1 b = GetSize m b ∧
        Independent fuel m1 c b csB.length (csB.map Prod.snd)) ∧
      (∃ m1, operator_assign fuel m a b x x1 = Except.ok m1 ∧
        toList fuel m1 a = Except.ok (csB.map Prod.snd) ∧
        ((csA ≠ [] ∨ csB ≠ [] → GetSize m1 a = csB.length) ∧
          (csA = [] → csB = [] → m1 = m)) ∧
        toList fuel m1 b = Except.ok (csB.map Prod.snd) ∧ GetSize m1 b = GetSize m b ∧
        Independent fuel m1 a b csB.length (csB.map Prod.snd)) := by
  have hltB := Path.addr_lt hB
  have hcount : Nat.iterate size_inc csB.length 0 = csB.length := by
    rw [iterate_size_inc _ _ (by omega)]
    omega
  constructor
  · obtain ⟨m1, hcells1, hobjs1, _, hcase⟩ := copy_ctor_spec m c b csB fuel hcb hB hfB
    rcases hcase with ⟨_, hcopy, cs1, hpath1, hmap1, hge1, hsz1, _⟩ | ⟨hlt, _⟩
    · have hob1 := hobjs1 b (fun h => hcb h.symm)
      have hlen1 : cs1.length = csB.length := by
        have := congrArg List.length hmap1
        simpa using this
      have hpB1 : Path m1 (m1.objs b).head_next_node csB NodePtr.null := by
        rw [hob1]
        exact Path.mono hcells1 hB
      refine ⟨m1, hcopy, ?_, ?_, toList_of_path fuel hpB1 hfB, ?_, ?_⟩
      · rw [← hmap1]
        exact toList_of_path fuel hpath1 (by omega)
      · rw [GetSize, hsz1, hcount]
      · rw [GetSize, hob1]
        rfl
      · rw [← hlen1]
        apply independent_of_disjoint fuel m1 c b cs1 csB hpath1 hpB1 hcb _ hfB
        intro d hd e he h
        have h1 := hge1 d hd
        have h2 := hltB e he
        omega
    · omega
  · by_cases hne : (m.objs a).head_next_node = (m.objs b).head_next_node
    · have hboth : csA = [] ∧ csB = [] := by
        by_contra hcon
        have hor : csA ≠ [] ∨ csB ≠ [] := by
          by_cases h1 : csA = []
          · right
            intro h2
            exact hcon ⟨h1, h2⟩
          · exact Or.inl h1
        exact heads_ne_of_disjoint hA hB hdisj hor hne
      obtain ⟨hA0, hB0⟩ := hboth
      subst hA0
      subst hB0
      refine ⟨m, by simp [operator_assign, hne], toList_of_path fuel hA hfA, ⟨?_, ?_⟩,
        toList_of_path fuel hB hfB, rfl, ?_⟩
      · intro hor
        rcases hor with h | h <;> exact absurd rfl h
      · intro _ _
        rfl
      · exact independent_of_disjoint fuel m a b [] [] hA hB hab hdisj hfB
    · obtain ⟨m3, cs1, hassign, hpath3, hmap3, hge3, hsz3, hob3, hpB3⟩ :=
        operator_assign_spec m a b x x1 csA csB fuel hA hB hdisj hne hfA hfB hbud hxa hxb
          hx1a hx1b hx1x
      have hlen3 : cs1.length = csB.length := by
        have := congrArg List.length hmap3
        simpa using this
      refine ⟨m3, hassign, ?_, ⟨?_, ?_⟩, toList_of_path fuel hpB3 hfB, ?_, ?_⟩
      · rw [← hmap3]
        exact toList_of_path fuel hpath3 (by omega)
      · intro _
        rw [GetSize, hsz3, hcount]
      · intro hA0 hB0
        exfalso
        subst hA0
        subst hB0
        have h1 : (m.objs a).head_next_node = NodePtr.null := hA
        have h2 : (m.objs b).head_next_node = NodePtr.null := hB
        exact hne (by rw [h1, h2])
      · rw [GetSize, hob3]
        rfl
      · rw [← hlen3]
        apply independent_of_disjoint fuel m3 a b cs1 csB hpath3 hpB3 hab _ hfB
        intro d hd e he h
        have h1 := hge3 d hd
        have h2 := hltB e he
        omega

/-- C13, amended, at a concrete input: `A = {1, 2, 3}` and `B = {1, 2}`; the copy
constructed is the list object `2`, the local lists of `operator=` and `swap` are the
objects `3` and `4`. -/
theorem copy_is_deep_witness :
    (Path mem_sample (mem_sample.objs 0).head_next_node [(0, 1), (1, 2), (2, 3)] NodePtr.null ∧
        Path mem_sample (mem_sample.objs 1).head_next_node [(3, 1), (4, 2)] NodePtr.null ∧
        (∀ ca ∈ [(0, 1), (1, 2), (2, 3)], ∀ cb ∈ [(3, 1), (4, 2)],
          (ca : Nat × Nat).1 ≠ (cb : Nat × Nat).1) ∧
        [(3, 1), (4, 2)].length < SIZE_MOD ∧
        [(0, 1), (1, 2), (2, 3)].length < 4 ∧ [(3, 1), (4, 2)].length < 4 ∧
        [(3, 1), (4, 2)].length ≤ mem_sample.budget ∧
        0 ≠ 1 ∧ 2 ≠ 1 ∧ 3 ≠ 0 ∧ 3 ≠ 1 ∧ 4 ≠ 0 ∧ 4 ≠ 1 ∧ 4 ≠ 3) ∧
      ((∃ m1, SingleLinkedList_copy 4 mem_sample 2 1 = Except.ok m1 ∧
          toList 4 m1 2 = Except.ok [1, 2] ∧ GetSize m1 2 = 2 ∧
          toList 4 m1 1 = Except.ok [1, 2] ∧ GetSize m1 1 = 2 ∧
          Independent 4 m1 2 1 2 [1, 2]) ∧
        (∃ m1, operator_assign 4 mem_sample 0 1 3 4 = Except.ok m1 ∧
          toList 4 m1 0 = Except.ok [1, 2] ∧
          (([(0, 1), (1, 2), (2, 3)] ≠ ([] : List (Nat × Nat)) ∨
              [(3, 1), (4, 2)] ≠ ([] : List (Nat × Nat)) → GetSize m1 0 = 2) ∧
            ([(0, 1), (1, 2), (2, 3)] = ([] : List (Nat × Nat)) →
              [(3, 1), (4, 2)] = ([] : List (Nat × Nat)) → m1 = mem_sample)) ∧
          toList 4 m1 1 = Except.ok [1, 2] ∧ GetSize m1 1 = 2 ∧
          Independent 4 m1 0 1 2 [1, 2])) :=
  ⟨⟨⟨rfl, _, rfl, rfl, _, rfl, rfl, _, rfl, rfl⟩, ⟨rfl, _, rfl, rfl, _, rfl, rfl⟩,
      by decide, by decide, by decide, by decide, by decide, by decide, by decide,
      by decide, by decide, by decide, by decide, by decide⟩,
    copy_is_deep mem_sample 0 1 2 3 4 [(0, 1), (1, 2), (2, 3)] [(3, 1), (4, 2)] 4
      ⟨rfl, _, rfl, rfl, _, rfl, rfl, _, rfl, rfl⟩ ⟨rfl, _, rfl, rfl, _, rfl, rfl⟩
      (by decide) (by decide) (by decide) (by decide) (by decide)
      (by decide) (by decide) (by decide) (by decide) (by decide) (by decide) (by decide)⟩

/-- C14 as stated fails on the code: the list `A` constructed from `{1}`, after
`PopFront()`, is empty with `GetSize() == 2 ^ 64 - 1`; `B` is default-constructed, empty
with `GetSize() == 0`. `A.swap(B)` finds the two sentinel links equal and does nothing:
`A` keeps `GetSize() == 2 ^ 64 - 1`, which is not the size of `B`. -/
theorem swap_skipped_on_empty_lists :
    ∃ m1 m2 m3,
      SingleLinkedList_initializer_list 2 (Mem.init Nat 2) 0 [1] = Except.ok m1 ∧
      PopFront m1 0 = Except.ok m2 ∧
      toList 2 m2 0 = Except.ok [] ∧ GetSize m2 0 = 2 ^ 64 - 1 ∧
      toList 2 (SingleLinkedList_default m2 1) 1 = Except.ok [] ∧
      GetSize (SingleLinkedList_default m2 1) 1 = 0 ∧
      swap 2 (SingleLinkedList_default m2 1) 0 1 2 = Except.ok m3 ∧
      GetSize m3 0 = 2 ^ 64 - 1 ∧ GetSize m3 1 = 0 ∧
      GetSize m3 0 ≠ GetSize (SingleLinkedList_default m2 1) 1 :=
  ⟨_, _, _, rfl, rfl, rfl, rfl, rfl, rfl, rfl, rfl, rfl, by decide⟩

/-- C14, amended: for all lists `A` and `B` with element sequences `SA` and `SB`, whatever
their `size_` (one or both may be empty), `A.swap(B)`, also through the free function,
returns; afterwards `A` has the sequence `SB` and `B` has the sequence `SA`. When
`A.begin() != B.begin()`, which is so whenever `SA` and `SB` differ and whenever `A` and
`B`, on disjoint chains, are not both empty, `A` also has the `GetSize()` of `B` and `B`
that of `A`; when `A.begin() == B.begin()`, as for two empty lists, `swap` does nothing
and each list keeps its own `GetSize()`. -/
theorem swap_exchanges (m : Mem α) (a b x : Nat) (SA SB : List α) (fuel : Nat)
    (hA : toList fuel m a = Except.ok SA) (hB : toList fuel m b = Except.ok SB)
    (hxa : x ≠ a) (hxb : x ≠ b) :
    ∃ m1, swap fuel m a b x = Except.ok m1 ∧ swap_free fuel m a b x = Except.ok m1 ∧
      toList fuel m1 a = Except.ok SB ∧ toList fuel m1 b = Except.ok SA ∧
      (begin_ m a ≠ begin_ m b →
        GetSize m1 a = GetSize m b ∧ GetSize m1 b = GetSize m a) ∧
      (begin_ m a = begin_ m b → m1 = m) ∧
      (SA ≠ SB → begin_ m a ≠ begin_ m b) ∧
      (∀ csA csB : List (Nat × α),
        Path m (m.objs a).head_next_node csA NodePtr.null →
        Path m (m.objs b).head_next_node csB NodePtr.null →
        (∀ ca ∈ csA, ∀ cb ∈ csB, ca.1 ≠ cb.1) → (csA ≠ [] ∨ csB ≠ []) →
        begin_ m a ≠ begin_ m b) := by
  have hseq : (m.objs a).head_next_node = (m.objs b).head_next_node → SA = SB := by
    intro hne
    have hsame : toList fuel m a = toList fuel m b := toList_congr fuel (fun _ => rfl) hne
    rw [hA, hB] at hsame
    injection hsame
  have hbegin : begin_ m a = begin_ m b ↔
      (m.objs a).head_next_node = (m.objs b).head_next_node := by
    simp [begin_]
  have hlast : (SA ≠ SB → begin_ m a ≠ begin_ m b) ∧
      (∀ csA csB : List (Nat × α),
        Path m (m.objs a).head_next_node csA NodePtr.null →
        Path m (m.objs b).head_next_node csB NodePtr.null →
        (∀ ca ∈ csA, ∀ cb ∈ csB, ca.1 ≠ cb.1) → (csA ≠ [] ∨ csB ≠ []) →
        begin_ m a ≠ begin_ m b) := by
    constructor
    · intro hS hb
      exact hS (hseq (hbegin.mp hb))
    · intro csA csB hpA hpB hdisj hor hb
      exact heads_ne_of_disjoint hpA hpB hdisj hor (hbegin.mp hb)
  by_cases hne : (m.objs a).head_next_node = (m.objs b).head_next_node
  · have hS : SA = SB := hseq hne
    refine ⟨m, ?_, ?_, ?_, ?_, ?_, ?_, hlast⟩
    · simp [swap, hne]
    · simp [swap_free, swap, hne]
    · rw [← hS]
      exact hA
    · rw [hS]
      exact hB
    · intro hb
      exact absurd (hbegin.mpr hne) hb
    · intro _
      rfl
  · obtain ⟨f, rfl⟩ : ∃ f, fuel = f + 1 := by
      cases fuel with
      | zero => simp [toList, traverse] at hA
      | succ f => exact ⟨f, rfl⟩
    obtain ⟨m1, hswap, hnodes, _, hoa, hob, _, _⟩ := swap_spec f m a b x hne hxa hxb
    have hcells : ∀ c, m1.cell c = m.cell c := cell_of_eq hnodes
    refine ⟨m1, hswap, hswap, ?_, ?_, ?_, ?_, hlast⟩
    · rw [toList_congr (f + 1) hcells (by rw [hoa]), hB]
    · rw [toList_congr (f + 1) hcells (by rw [hob]), hA]
    · intro _
      constructor
      · rw [GetSize, hoa]
        rfl
      · rw [GetSize, hob]
        rfl
    · intro hb
      exact absurd (hbegin.mp hb) hne

/-- C14, amended, at a concrete input: `A = {1, 2, 3}` and `B = {1, 2}`. -/
theorem swap_exchanges_witness :
    (toList 4 mem_sample 0 = Except.ok [1, 2, 3] ∧ toList 4 mem_sample 1 = Except.ok [1, 2] ∧
        2 ≠ 0 ∧ 2 ≠ 1) ∧
      ∃ m1, swap 4 mem_sample 0 1 2 = Except.ok m1 ∧ swap_free 4 mem_sample 0 1 2 = Except.ok m1 ∧
        toList 4 m1 0 = Except.ok [1, 2] ∧ toList 4 m1 1 = Except.ok [1, 2, 3] ∧
        (begin_ mem_sample 0 ≠ begin_ mem_sample 1 → GetSize m1 0 = 2 ∧ GetSize m1 1 = 3) ∧
        (begin_ mem_sample 0 = begin_ mem_sample 1 → m1 = mem_sample) ∧
        ([1, 2, 3] ≠ [1, 2] → begin_ mem_sample 0 ≠ begin_ mem_sample 1) ∧
        (∀ csA csB : List (Nat × Nat),
          Path mem_sample (mem_sample.objs 0).head_next_node csA NodePtr.null →
          Path mem_sample (mem_sample.objs 1).head_next_node csB NodePtr.null →
          (∀ ca ∈ csA, ∀ cb ∈ csB, ca.1 ≠ cb.1) → (csA ≠ [] ∨ csB ≠ []) →
          begin_ mem_sample 0 ≠ begin_ mem_sample 1) :=
  ⟨⟨rfl, rfl, by decide, by decide⟩,
    swap_exchanges mem_sample 0 1 2 [1, 2, 3] [1, 2] 4 rfl rfl (by decide) (by decide)⟩

/-- C15: for every list `L`, self-assignment `L = L` and self-swap `L.swap(L)` (also
through the free function) return and leave the whole memory as it was, hence the
element sequence and `GetSize()` of `L`. -/
theorem self_assign_and_self_swap (fuel : Nat) (m : Mem α) (this x x1 : Nat) :
    operator_assign fuel m this this x x1 = Except.ok m ∧
      swap fuel m this this x = Except.ok m ∧
      swap_free fuel m this this x = Except.ok m := by
  simp [operator_assign, swap, swap_free]

/-- C16: for every list, value `x` and position `pos` on a live node (the sentinel or a
node of the list): when the node cannot be created, `PushFront(x)` and
`InsertAfter(pos, x)` throw and the memory the caller finds is the memory before the
call, hence the same element sequence and `GetSize()`. -/
theorem failed_allocation_leaves_list (m : Mem α) (this : Nat) (x : α) (pos : BasicIterator)
    (nx : NodePtr) (hb : m.budget = 0) (hpos : m.get_next pos.node_ = Except.ok nx) :
    PushFront m this x = Except.error (Err.bad_alloc m) ∧
      InsertAfter m this pos x = Except.error (Err.bad_alloc m) := by
  constructor
  · simp [PushFront, Mem.new_Node, hb, error_bind]
  · simp [InsertAfter, hpos, ok_bind, Mem.new_Node, hb, error_bind]

/-- C16, at a concrete input: the list `{1, 2, 3}` with no allocation left, `pos` its
first element. -/
theorem failed_allocation_leaves_list_witness :
    (({ mem_sample with budget := 0 } : Mem Nat).budget = 0 ∧
        ({ mem_sample with budget := 0 } : Mem Nat).get_next (NodePtr.heap 0)
          = Except.ok (NodePtr.heap 1)) ∧
      (PushFront { mem_sample with budget := 0 } 0 7
          = Except.error (Err.bad_alloc { mem_sample with budget := 0 }) ∧
        InsertAfter { mem_sample with budget := 0 } 0 { node_ := NodePtr.heap 0 } 7
          = Except.error (Err.bad_alloc { mem_sample with budget := 0 })) :=
  ⟨⟨rfl, rfl⟩,
    failed_allocation_leaves_list { mem_sample with budget := 0 } 0 7
      { node_ := NodePtr.heap 0 } (NodePtr.heap 1) rfl rfl⟩

/-- C17: for all lists `A` and `B` with different contents to copy: when a node of the
copy of `B` cannot be created (at whichever element the allocations run out), the
assignment `A = B` throws, and in the memory the caller finds `A` has the element
sequence and `GetSize()` it had before the assignment (and so has `B`). -/
theorem failed_assignment_leaves_target (m : Mem α) (a b x x1 : Nat) (SA SB : List α)
    (fuel : Nat)
    (hA : toList fuel m a = Except.ok SA) (hB : toList fuel m b = Except.ok SB)
    (hne : begin_ m a ≠ begin_ m b) (hbud : m.budget < SB.length)
    (hxa : x ≠ a) (hxb : x ≠ b) :
    ∃ m1, operator_assign fuel m a b x x1 = Except.error (Err.bad_alloc m1) ∧
      toList fuel m1 a = Except.ok SA ∧ GetSize m1 a = GetSize m a ∧
      toList fuel m1 b = Except.ok SB ∧ GetSize m1 b = GetSize m b := by
  obtain ⟨csA, hpA, hmA, hlA⟩ := path_of_toList hA
  obtain ⟨csB, hpB, hmB, hlB⟩ := path_of_toList hB
  have hlen : csB.length = SB.length := by rw [← hmB, List.length_map]
  have hne2 : (m.objs a).head_next_node ≠ (m.objs b).head_next_node := by
    intro h
    apply hne
    simp [begin_, h]
  obtain ⟨m1, hcells, hobjs, _, hcase⟩ := copy_ctor_spec m x b csB fuel hxb hpB hlB
  rcases hcase with ⟨hok, _⟩ | ⟨_, hthrow⟩
  · omega
  · have hoa := hobjs a (fun h => hxa h.symm)
    have hob := hobjs b (fun h => hxb h.symm)
    refine ⟨m1, ?_, ?_, ?_, ?_, ?_⟩
    · simp only [operator_assign, hne2, ne_eq, not_false_eq_true, if_true, hthrow, error_bind]
    · rw [← hmA]
      apply toList_of_path fuel _ hlA
      rw [hoa]
      exact Path.mono hcells hpA
    · rw [GetSize, hoa]
      rfl
    · rw [← hmB]
      apply toList_of_path fuel _ hlB
      rw [hob]
      exact Path.mono hcells hpB
    · rw [GetSize, hob]
      rfl

/-- C17, at a concrete input: `A = {1, 2}`, `B = {1, 2, 3}` and only one allocation
left. -/
theorem failed_assignment_leaves_target_witness :
    (toList 4 ({ mem_sample with budget := 1 } : Mem Nat) 1 = Except.ok [1, 2] ∧
        toList 4 ({ mem_sample with budget := 1 } : Mem Nat) 0 = Except.ok [1, 2, 3] ∧
        begin_ ({ mem_sample with budget := 1 } : Mem Nat) 1
          ≠ begin_ ({ mem_sample with budget := 1 } : Mem Nat) 0 ∧
        ({ mem_sample with budget := 1 } : Mem Nat).budget < [1, 2, 3].length ∧
        2 ≠ 1 ∧ 2 ≠ 0) ∧
      ∃ m1, operator_assign 4 { mem_sample with budget := 1 } 1 0 2 3
          = Except.error (Err.bad_alloc m1) ∧
        toList 4 m1 1 = Except.ok [1, 2] ∧
        GetSize m1 1 = 2 ∧
        toList 4 m1 0 = Except.ok [1, 2, 3] ∧
        GetSize m1 0 = 3 :=
  ⟨⟨rfl, rfl, by decide, by decide, by decide, by decide⟩,
    failed_assignment_leaves_target { mem_sample with budget := 1 } 1 0 2 3 [1, 2] [1, 2, 3] 4
      rfl rfl (by decide) (by decide) (by decide) (by decide)⟩

/-- C18 fails on the code: on the list constructed from `{1, 2}`, `PopFront()` (within its
precondition) leaves one reachable element but `GetSize() == 0`, so that `IsEmpty()` is
`true` while `begin() != end()`. -/
theorem PopFront_breaks_size_invariant :
    ∃ m1 m2,
      SingleLinkedList_initializer_list 3 (Mem.init Nat 2) 0 [1, 2] = Except.ok m1 ∧
      toList 3 m1 0 = Except.ok [1, 2] ∧ GetSize m1 0 = 2 ∧
      PopFront m1 0 = Except.ok m2 ∧
      toList 3 m2 0 = Except.ok [2] ∧ GetSize m2 0 = 0 ∧
      IsEmpty m2 0 = true ∧ begin_ m2 0 ≠ end_ :=
  ⟨_, _, rfl, rfl, rfl, rfl, rfl, rfl, rfl, by decide⟩

/-- C19: for every list, `Clear()` returns and a second `Clear()` leaves exactly the
memory left by the first, hence the same (empty) element sequence and the same
`GetSize()`; and `Clear()` on a list that is already empty leaves the memory as it
was. -/
theorem Clear_idempotent (m : Mem α) (this : Nat) (S : List α) (fuel : Nat)
    (hS : toList fuel m this = Except.ok S) :
    ∃ m1, Clear fuel m this = Except.ok m1 ∧ Clear fuel m1 this = Except.ok m1 ∧
      toList fuel m1 this = Except.ok [] ∧ begin_ m1 this = end_ ∧
      (begin_ m this = end_ → m1 = m) := by
  obtain ⟨cs, hp, _, hl⟩ := path_of_toList hS
  obtain ⟨f, rfl⟩ : ∃ f, fuel = f + 1 := ⟨fuel - 1, by omega⟩
  obtain ⟨m1, hclear, hnull, _⟩ := Clear_spec this cs (f + 1) m hp hl
  refine ⟨m1, hclear, Clear_of_empty f m1 this hnull, ?_, ?_, ?_⟩
  · simp [toList, begin_, hnull, traverse, end_]
  · simp [begin_, hnull, end_]
  · intro hempty
    have hnull0 : (m.objs this).head_next_node = NodePtr.null := by
      simpa [begin_, end_] using hempty
    rw [Clear_of_empty f m this hnull0] at hclear
    injection hclear with h
    exact h.symm

/-- C19, at a concrete input: the list `{1, 2, 3}`. -/
theorem Clear_idempotent_witness :
    toList 4 mem_sample 0 = Except.ok [1, 2, 3] ∧
      ∃ m1, Clear 4 mem_sample 0 = Except.ok m1 ∧ Clear 4 m1 0 = Except.ok m1 ∧
        toList 4 m1 0 = Except.ok [] ∧ begin_ m1 0 = end_ ∧
        (begin_ mem_sample 0 = end_ → m1 = mem_sample) :=
  ⟨rfl, Clear_idempotent mem_sample 0 [1, 2, 3] 4 rfl⟩

/-- C20 fails on the code: with `A` constructed from `{1, 2, 3}` and `B` from `{1, 2}`,
evaluating `A == B` dereferences the end cursor of `B` (the assertion of `operator*`
fails), and so do `A != B`, `A <= B` and `A >= B`. -/
theorem operator_eq_dereferences_end :
    ∃ m1 m2,
      SingleLinkedList_initializer_list 4 (Mem.init Nat 5) 0 [1, 2, 3] = Except.ok m1 ∧
      SingleLinkedList_initializer_list 4 m1 1 [1, 2] = Except.ok m2 ∧
      toList 4 m2 0 = Except.ok [1, 2, 3] ∧ toList 4 m2 1 = Except.ok [1, 2] ∧
      advance m2 2 (begin_ m2 1) = Except.ok end_ ∧
      BasicIterator.deref m2 end_ = Except.error Err.undefined ∧
      operator_eq 4 m2 0 1 = Except.error Err.undefined ∧
      operator_ne 4 m2 0 1 = Except.error Err.undefined ∧
      operator_le 4 m2 0 1 = Except.error Err.undefined ∧
      operator_ge 4 m2 0 1 = Except.error Err.undefined :=
  ⟨_, _, rfl, rfl, rfl, rfl, rfl, rfl, rfl, rfl, rfl, rfl⟩

end SLL
